import Mathlib

/-!
Verification development for the hybrid retrieval / hierarchical highlighting
engine of the `insight` repository (`ragnarok` component).

The Python source is shallowly embedded: page text is `List Char`, machine
floats become exact rationals (`ℚ`), functions that may raise or diverge
return `Option`/`Except`, and the one genuinely non-structural loop (the
sliding-window fallback of `split_text_simple`) is modelled with explicit
fuel, `none` meaning "did not return normally within the given budget".
-/

/-- Page text is modelled as a list of characters. -/
abbrev Text := List Char

/-- ASCII whitespace, the character class stripped by Python's `str.strip()`
(for the texts in scope; exotic Unicode whitespace is out of the model). -/
def isSpaceChar (c : Char) : Bool :=
  c = ' ' || c = '\t' || c = '\n' || c = '\r' || c = '\x0b' || c = '\x0c'

/-- `s.lstrip()`: drop leading whitespace. -/
def stripL (s : Text) : Text := s.dropWhile isSpaceChar

/-- `s.rstrip()`: drop trailing whitespace. -/
def stripR (s : Text) : Text := (s.reverse.dropWhile isSpaceChar).reverse

/-- Python `s.strip()`. -/
def strip (s : Text) : Text := stripR (stripL s)

/-- Number of leading whitespace characters of `s` (the offset at which
`strip s` occurs inside `s`). -/
def wsCount (s : Text) : Nat := (s.takeWhile isSpaceChar).length

-- ---------------------------------------------------------------------------
-- vector_db.py: index naming (`_normalize_model_name`, `get_index_name`,
-- `get_index_name_highlights`)
-- ---------------------------------------------------------------------------

/-- `ES_INDEX_REPLACE_CHARS = ' "#*+,./:<>?\\_|'` from `vector_db.py`. -/
def ES_INDEX_REPLACE_CHARS : List Char :=
  [' ', '"', '#', '*', '+', ',', '.', '/', ':', '<', '>', '?', '\\', '_', '|']

/-- `VectorDB._normalize_model_name`: a hard-coded alias for the legacy
`text-embedding-3-large` indices, otherwise `translate(ES_INDEX_TRANSLATOR)`
(each character of the replace set becomes `'-'`) followed by `.lower()`. -/
def normalize_model_name (model_name : String) : String :=
  if model_name = "text-embedding-3-large" then "openai-3-large"
  else
    String.mk ((model_name.toList.map
      (fun c => if c ∈ ES_INDEX_REPLACE_CHARS then '-' else c)).map Char.toLower)

/-- `VectorDB.get_index_name`: the configured base embeddings index name
joined to the normalized model name. -/
def get_index_name (index_name : String) (model_name : String) : String :=
  index_name ++ "_" ++ normalize_model_name model_name

/-- `VectorDB.get_index_name_highlights`: same, over the highlights base. -/
def get_index_name_highlights (index_name_highlights : String) (model_name : String) : String :=
  index_name_highlights ++ "_" ++ normalize_model_name model_name

-- ---------------------------------------------------------------------------
-- utils/query_rewrite.py: `rewrite_query`
-- ---------------------------------------------------------------------------

/-- One chat message (`{"role": ..., "content": ...}`). -/
structure Msg where
  role : String
  content : String
deriving DecidableEq, Repr

/-- `common.utils.prompts.build_messages`. -/
def build_messages (system_prompt : String) (query : String) (history : List Msg) :
    List Msg :=
  Msg.mk "system" system_prompt :: history ++ [Msg.mk "user" query]

/-- `rewrite_query`.  The generation capability is passed in as an oracle
`gen` (invoked on the built message list; `Except.error` models a raised
exception inside the `try` block).  The second component of the result counts
how many times the generation capability was invoked. -/
def rewrite_query (gen : List Msg → Except String String)
    (system_prompt : String) (query : String) (history_messages : List Msg) :
    String × Nat :=
  if history_messages.isEmpty then (query, 0)
  else
    match gen (build_messages system_prompt query history_messages) with
    | Except.ok rewritten => (rewritten, 1)
    | Except.error _ => (query, 1)

-- ---------------------------------------------------------------------------
-- vector_db.py: `knn_search` / `bm25_search` result handling
-- ---------------------------------------------------------------------------

/-- A retrieval hit (`common.models.elastic.KBEntry`): document identity,
relevance score (exact rational standing in for the float), and the carried
source payload. -/
structure KBEntry where
  id : String
  score : ℚ
  source : String
deriving DecidableEq, Repr

/-- The error taxonomy relevant here (`common.exceptions.DBRecordNotFound`). -/
inductive DBError where
  | recordNotFound (kb_ids : List String)
deriving DecidableEq, Repr

/-- Tail of `VectorDB.knn_search` after the Elasticsearch call: the response's
hit list is the input (its reported total is the number of matching hits);
an empty dense result raises `DBRecordNotFound(kb_ids)`, otherwise the
validated hits are returned. -/
def knn_search (kb_ids : List String) (hits : List KBEntry) :
    Except DBError (List KBEntry) :=
  if hits.length = 0 then Except.error (DBError.recordNotFound kb_ids)
  else Except.ok hits

/-- Tail of `VectorDB.bm25_search` after the Elasticsearch call: the hit list
is returned unconditionally, with no empty-result check. -/
def bm25_search (hits : List KBEntry) : Except DBError (List KBEntry) :=
  Except.ok hits

-- ---------------------------------------------------------------------------
-- A stable descending sort by a rational key: the model of Python's
-- `list.sort(key=..., reverse=True)` / `sorted(..., reverse=True)` (Python's
-- sort is stable; a stable sort of a list under a total preorder is unique,
-- so this insertion sort computes the same list).
-- ---------------------------------------------------------------------------

/-- Insert `x` after every element with a strictly greater key (so before
any element with an equal key that was inserted from further right). -/
def insertDesc (key : α → ℚ) (x : α) : List α → List α
  | [] => [x]
  | y :: ys => if key x < key y then y :: insertDesc key x ys else x :: y :: ys

/-- Stable descending insertion sort by `key`. -/
def sortDesc (key : α → ℚ) : List α → List α
  | [] => []
  | x :: xs => insertDesc key x (sortDesc key xs)

-- ---------------------------------------------------------------------------
-- vector_db.py: `fetch_highlight_spans`, the L1-selection step
-- (sort by score descending, keep top half with a minimum of one,
-- drop entries below the 0.05 floor)
-- ---------------------------------------------------------------------------

/-- One scored L1 child as handled inside `fetch_highlight_spans`
(`x["score"]` may be `None`, read as `x["score"] or 0.0`). -/
structure L1Hit where
  score : Option ℚ
  text : String
deriving DecidableEq, Repr

/-- `(x["score"] or 0.0)` (for scores in scope `or` coincides with
`None`-defaulting: `None` and `0.0` both yield `0.0`). -/
def l1Key (x : L1Hit) : ℚ := x.score.getD 0

/-- The L1 selection block of `fetch_highlight_spans`:
`l1_all.sort(key=score, reverse=True)`; if non-empty, keep the first
`max(1, len // 2)` entries and then drop those scoring below `0.05`. -/
def select_l1_top (l1_all : List L1Hit) : List L1Hit :=
  let sorted := sortDesc l1Key l1_all
  if sorted.isEmpty then []
  else
    let half := max 1 (sorted.length / 2)
    (sorted.take half).filter (fun x => (1 : ℚ)/20 ≤ l1Key x)

/-- The selection as the specification words it: from the descending-sorted
list, keep exactly the entries that are **both** within the top half
(positional, floor division, minimum one) **and** at or above the 0.05
floor — the intersection of the two conditions. -/
def select_l1_spec (l1_all : List L1Hit) : List L1Hit :=
  let sorted := sortDesc l1Key l1_all
  let half := max 1 (sorted.length / 2)
  ((sorted.enum).filter
    (fun p => p.1 < half ∧ (1 : ℚ)/20 ≤ l1Key p.2)).map (fun p => p.2)

-- ---------------------------------------------------------------------------
-- rag.py: `reciprocal_rank_fusion`
-- ---------------------------------------------------------------------------

/-- One value of the `ranks` defaultdict: `[cosine_rank, bm25_rank]`. -/
abbrev RankPair := Option Nat × Option Nat

/-- `ranks[id] = f(ranks[id])` on an insertion-ordered association list,
with the defaultdict's `[None, None]` default materialised on first access. -/
def updAssoc (f : RankPair → RankPair) (id : String) :
    List (String × RankPair) → List (String × RankPair)
  | [] => [(id, f (none, none))]
  | (k, v) :: rest =>
      if k = id then (k, f v) :: rest else (k, v) :: updAssoc f id rest

/-- `for rank, result in enumerate(cosine_results): ranks[result.id][0] = rank + 1`
(`i` is the current `enumerate` index). -/
def assignCosRanks : List KBEntry → Nat → List (String × RankPair) →
    List (String × RankPair)
  | [], _, a => a
  | e :: es, i, a =>
      assignCosRanks es (i + 1) (updAssoc (fun v => (some (i + 1), v.2)) e.id a)

/-- `for rank, result in enumerate(bm25_results): ranks[result.id][1] = rank + 1`. -/
def assignBmRanks : List KBEntry → Nat → List (String × RankPair) →
    List (String × RankPair)
  | [], _, a => a
  | e :: es, i, a =>
      assignBmRanks es (i + 1) (updAssoc (fun v => (v.1, some (i + 1))) e.id a)

/-- The fully populated `ranks` dictionary, in insertion order. -/
def rrf_ranks (cosine_results bm25_results : List KBEntry) :
    List (String × RankPair) :=
  assignBmRanks bm25_results 0 (assignCosRanks cosine_results 0 [])

/-- `score = 0; if rank is not None: score += 1 / (rank + c)` for each list. -/
def rrf_score (c : Nat) : RankPair → ℚ
  | (cr, br) =>
      (match cr with | some r => 1 / ((r : ℚ) + c) | none => 0) +
      (match br with | some r => 1 / ((r : ℚ) + c) | none => 0)

/-- `rrf_scores`, in the `ranks` dictionary's insertion order. -/
def rrf_scores (c : Nat) (cosine_results bm25_results : List KBEntry) :
    List (String × ℚ) :=
  (rrf_ranks cosine_results bm25_results).map (fun p => (p.1, rrf_score c p.2))

/-- `results = {r.id: r for r in cosine_results + bm25_results}` followed by
`res = results[doc_id]; res.score = score`: the last entry with a given id
wins the dict comprehension, and its score is overwritten with the fused
score.  (`results[doc_id]` cannot raise `KeyError`: every fused id comes from
one of the two lists; the fallback entry here is dead code, kept only to make
the function total.) -/
def rrf_pick (all : List KBEntry) (p : String × ℚ) : KBEntry :=
  match all.reverse.find? (fun e => e.id = p.1) with
  | some e => { e with score := p.2 }
  | none => { id := p.1, score := p.2, source := "" }

/-- `reciprocal_rank_fusion(cosine_results, bm25_results, c)`. -/
def reciprocal_rank_fusion (cosine_results bm25_results : List KBEntry)
    (c : Nat) : List KBEntry :=
  (sortDesc (fun p => p.2) (rrf_scores c cosine_results bm25_results)).map
    (rrf_pick (cosine_results ++ bm25_results))

/-- The fused entries in the `ranks` dictionary's insertion order (before the
descending sort) — the reference point for the tie-stability statement. -/
def rrf_insertion_list (cosine_results bm25_results : List KBEntry)
    (c : Nat) : List KBEntry :=
  (rrf_scores c cosine_results bm25_results).map
    (rrf_pick (cosine_results ++ bm25_results))

/-- The specification's fused-score formula: `Σ 1/(rank_in_list + c)` over
exactly the lists the id appears in, with ranks counted from 1 (the rank of
an id is its first-occurrence position). -/
def rrf_spec_score (c : Nat) (cosine_results bm25_results : List KBEntry)
    (id : String) : ℚ :=
  (match cosine_results.findIdx? (fun e => e.id = id) with
   | some i => 1 / ((i : ℚ) + 1 + c) | none => 0) +
  (match bm25_results.findIdx? (fun e => e.id = id) with
   | some i => 1 / ((i : ℚ) + 1 + c) | none => 0)

-- ---------------------------------------------------------------------------
-- utils/highlight.py: text splitting primitives
-- ---------------------------------------------------------------------------

/-- Whether `pat` occurs in `s` at position `i` (as `s[i : i + len(pat)]`). -/
def occursAtB (pat s : Text) (i : Nat) : Bool := pat.isPrefixOf (s.drop i)

/-- Python `s.find(pat, start)` as an `Option`: the least position `i ≥ start`
at which `pat` occurs in `s` (`none` for Python's `-1`). -/
def findFrom (pat s : Text) (start : Nat) : Option Nat :=
  (List.range (s.length + 1)).find? (fun i => decide (start ≤ i) && occursAtB pat s i)

/-- Python `s.split(sep)` for a non-empty `sep`, with structural fuel (any
fuel above `s.length` is exact; `splitSep` below supplies it). -/
def splitSepF (sep : Text) : Nat → Text → List Text
  | 0, t => [t]
  | f + 1, t =>
      match findFrom sep t 0 with
      | none => [t]
      | some i => t.take i :: splitSepF sep f (t.drop (i + sep.length))

/-- Python `s.split(sep)` (`sep` non-empty; the empty separator raises in
CPython and is fenced off in `findSep` below). -/
def splitSep (sep : Text) (t : Text) : List Text := splitSepF sep (t.length + 1) t

/-- Rejoin split parts: `joinWith sep (splitSep sep t) = t`. -/
def joinWith (sep : Text) : List Text → Text
  | [] => []
  | [p] => p
  | p :: q :: rest => p ++ sep ++ joinWith sep (q :: rest)

/-- Outcome of the separator-scanning loop head
(`if sep not in text or len(parts := text.split(sep)) < 2: continue`):
`err` models the `ValueError` CPython raises for `text.split("")` (reached
because `"" in text` is always true), `window` the fall-through to the
sliding-window code, `found sep` the first applicable separator. -/
inductive SepScan where
  | err
  | window
  | found (sep : Text)
deriving DecidableEq, Repr

/-- Scan the separator list for the first applicable separator. -/
def findSep (text : Text) : List Text → SepScan
  | [] => SepScan.window
  | sep :: rest =>
      if sep = [] then SepScan.err
      else if (findFrom sep text 0).isSome && 2 ≤ (splitSep sep text).length then
        SepScan.found sep
      else findSep text rest

/-- The sliding-window fallback loop of `split_text_simple` (lines 56-69):
`while start < n: end = min(start + chunk_size, n); append stripped window;
start = end - overlap if overlap > 0 else end; break if start >= n`.
Fuel-indexed: `none` means the loop did not finish within `fuel` iterations. -/
def windowLoop (text : Text) (chunk_size overlap : Nat) : Nat → Nat → Option (List Text)
  | 0, _ => none
  | f + 1, start =>
      if start < text.length then
        let e := min (start + chunk_size) text.length
        let chunk := strip ((text.drop start).take (e - start))
        let hd := if chunk = [] then [] else [chunk]
        let start2 := if 0 < overlap then e - overlap else e
        if text.length ≤ start2 then some hd
        else (windowLoop text chunk_size overlap f start2).map (fun r => hd ++ r)
      else some []

/-- The part-accumulation loop of `split_text_simple` (lines 34-54), with the
recursive call on oversized parts abstracted as `rec` (it is instantiated
with `split_text_simple` over `separators[1:]`).  The accumulator `cur`
carries the pending chunk; the final flush appends `cur.strip()` if
non-empty. -/
def accumParts (chunk_size : Nat) (rec : Text → Option (List Text)) (sep : Text) :
    List Text → Text → Option (List Text)
  | [], cur => some (if strip cur = [] then [] else [strip cur])
  | part :: rest, cur =>
      let full := part ++ (if rest = [] then [] else sep)
      if cur.length + full.length ≤ chunk_size then
        accumParts chunk_size rec sep rest (cur ++ full)
      else
        let flushed := if strip cur = [] then [] else [strip cur]
        if chunk_size < full.length then
          match rec full with
          | none => none
          | some sub =>
              (accumParts chunk_size rec sep rest []).map
                (fun out2 => flushed ++ (sub ++ out2))
        else
          (accumParts chunk_size rec sep rest full).map (fun out2 => flushed ++ out2)

/-- `split_text_simple(text, chunk_size, overlap, separators)`.  `wfuel`
bounds the iterations of each sliding-window loop; everything else is
structural (each recursive call drops the head of the separator list, exactly
as the source recurses with `separators[1:]`).  `none` means the call did not
return normally (the window loop exceeded its budget, or `text.split("")`
raised). -/
def split_text_simple (chunk_size overlap : Nat) (wfuel : Nat) :
    List Text → Text → Option (List Text)
  | seps, text =>
    if text.length ≤ chunk_size then
      some (if strip text = [] then [] else [text])
    else
      match seps, findSep text seps with
      | _, SepScan.err => none
      | _, SepScan.window => windowLoop text chunk_size overlap wfuel 0
      | [], SepScan.found _ => none
      | _ :: rest, SepScan.found sep =>
          accumParts chunk_size (split_text_simple chunk_size overlap wfuel rest) sep
            (splitSep sep text) []

-- ---------------------------------------------------------------------------
-- utils/highlight.py: offset recovery and hierarchical chunking
-- ---------------------------------------------------------------------------

/-- One chunk as produced by `create_chunks_from_text`:
`{"text", "chunk_index", "char_start", "char_end"}`. -/
structure RelChunk where
  text : Text
  chunk_index : Nat
  char_start : Nat
  char_end : Nat
deriving DecidableEq, Repr

/-- The offset-recovery loop of `create_chunks_from_text` (lines 135-146):
each stripped chunk text is searched for from `current_pos`; on a miss the
chunk is pinned at `current_pos` with its end capped at the text length;
`current_pos = max(0, end_pos - overlap)` is natural-number truncated
subtraction here. -/
def recoverOffsets (text : Text) (overlap : Nat) :
    List Text → Nat → Nat → List RelChunk
  | [], _, _ => []
  | t :: ts, i, current_pos =>
      let tc := strip t
      if tc = [] then recoverOffsets text overlap ts (i + 1) current_pos
      else
        match findFrom tc text current_pos with
        | some start_pos =>
            let end_pos := start_pos + tc.length
            RelChunk.mk tc i start_pos end_pos ::
              recoverOffsets text overlap ts (i + 1) (end_pos - overlap)
        | none =>
            let end_pos := min (current_pos + tc.length) text.length
            RelChunk.mk tc i current_pos end_pos ::
              recoverOffsets text overlap ts (i + 1) (end_pos - overlap)

/-- `create_chunks_from_text(text, chunk_size, overlap, separators)`. -/
def create_chunks_from_text (chunk_size overlap : Nat) (separators : List Text)
    (wfuel : Nat) (text : Text) : Option (List RelChunk) :=
  if strip text = [] then some []
  else
    (split_text_simple chunk_size overlap wfuel separators text).map
      (fun texts => recoverOffsets text overlap texts 0 0)

/-- `make_chunk_id(source_document_id, level, start, end)`. -/
def make_chunk_id (source_document_id : String) (level : String)
    (start stop : Nat) : String :=
  source_document_id ++ "_" ++ level ++ "_" ++ toString start ++ "_" ++ toString stop

/-- `preprocess_text_for_chunking`: drop `SOURCE FILE:` header lines, rejoin,
collapse leading blank lines (the `while result.startswith("\n\n\n")` loop
drops one leading newline per iteration, i.e. all but two of the leading
newlines when there are at least three), and strip. -/
def preprocess_text_for_chunking (text : Text) : Text :=
  let filtered := (splitSep ['\n'] text).filter
    (fun ln => !("SOURCE FILE:".toList.isPrefixOf (strip ln)))
  let result := joinWith ['\n'] filtered
  let k := (result.takeWhile (fun c => c = '\n')).length
  strip (result.drop (k - 2))

/-- The chunking parameters of `create_hierarchical_chunks`. -/
structure ChunkCfg where
  l0_size : Nat
  l0_overlap : Nat
  l1_size : Nat
  l1_overlap : Nat
  separators : List Text
deriving Repr

/-- An input document: `{"id": ..., "text": ..., "metadata": ...}` (the
free-form metadata dict is passed through untouched and not modelled). -/
structure Document where
  id : String
  text : Text
deriving DecidableEq, Repr

/-- One output chunk of `create_hierarchical_chunks` (its `metadata` fields;
`chunk_level` is the literal `"L0"` / `"L1"` string of the source). -/
structure HChunk where
  text : Text
  source_document_id : String
  chunk_level : String
  chunk_index : Nat
  char_start : Nat
  char_end : Nat
  chunk_id : String
  parent_chunk_id : Option String
deriving DecidableEq, Repr

/-- The L1 sub-chunk list for one L0: `create_chunks_from_text(l0["text"],
l1_size, l1_overlap, separators) or [{"text": l0_text, "char_start": 0,
"char_end": len(l0_text)}]` — an empty split is replaced by one synthetic L1
covering the whole L0 text (the dict has no `chunk_index` key; the field is
never read, 0 stands in). -/
def l1ListFor (cfg : ChunkCfg) (wfuel : Nat) (l0text : Text) :
    Option (List RelChunk) :=
  match create_chunks_from_text cfg.l1_size cfg.l1_overlap cfg.separators wfuel l0text with
  | none => none
  | some [] => some [RelChunk.mk l0text 0 0 l0text.length]
  | some l1s => some l1s

/-- The inner `for l1_idx, l1 in enumerate(l1s)` loop: L1 offsets are shifted
to absolute page offsets by adding the parent's `char_start`. -/
def l1Entries (doc_id l0_id : String) (l0_start : Nat) :
    List RelChunk → Nat → List HChunk
  | [], _ => []
  | l1 :: rest, l1_idx =>
      let abs_start := l0_start + l1.char_start
      let abs_end := l0_start + l1.char_end
      HChunk.mk l1.text doc_id "L1" l1_idx abs_start abs_end
          (make_chunk_id doc_id "L1" abs_start abs_end) (some l0_id) ::
        l1Entries doc_id l0_id l0_start rest (l1_idx + 1)

/-- The chunks emitted for one L0: the L0 entry followed by its L1 entries. -/
def l0Block (cfg : ChunkCfg) (wfuel : Nat) (doc_id : String) (l0_idx : Nat)
    (l0 : RelChunk) : Option (List HChunk) :=
  let l0_id := make_chunk_id doc_id "L0" l0.char_start l0.char_end
  (l1ListFor cfg wfuel l0.text).map
    (fun l1s =>
      HChunk.mk l0.text doc_id "L0" l0_idx l0.char_start l0.char_end l0_id none ::
        l1Entries doc_id l0_id l0.char_start l1s 0)

/-- The `for l0_idx, l0 in enumerate(l0s)` loop. -/
def l0Blocks (cfg : ChunkCfg) (wfuel : Nat) (doc_id : String) :
    List RelChunk → Nat → Option (List HChunk)
  | [], _ => some []
  | l0 :: rest, l0_idx =>
      match l0Block cfg wfuel doc_id l0_idx l0, l0Blocks cfg wfuel doc_id rest (l0_idx + 1) with
      | some b, some bs => some (b ++ bs)
      | _, _ => none

/-- The chunks emitted for one document (an empty L0 split means the document
is skipped — `if not (l0s := ...): continue` — which coincides with emitting
no blocks). -/
def docChunks (cfg : ChunkCfg) (wfuel : Nat) (doc : Document) :
    Option (List HChunk) :=
  let text := preprocess_text_for_chunking doc.text
  match create_chunks_from_text cfg.l0_size cfg.l0_overlap cfg.separators wfuel text with
  | none => none
  | some l0s => l0Blocks cfg wfuel doc.id l0s 0

/-- `create_hierarchical_chunks(documents, l0_size, l0_overlap, l1_size,
l1_overlap, separators)`. -/
def create_hierarchical_chunks (cfg : ChunkCfg) (wfuel : Nat) :
    List Document → Option (List HChunk)
  | [] => some []
  | doc :: rest =>
      match docChunks cfg wfuel doc, create_hierarchical_chunks cfg wfuel rest with
      | some a, some b => some (a ++ b)
      | _, _ => none

-- ---------------------------------------------------------------------------
-- Theorems: query rewriting (C7) and search error asymmetry (C8)
-- ---------------------------------------------------------------------------

/-- Claim C7: for every query string, `rewrite_query` called with an empty
`history_messages` list returns the query string unchanged and makes zero
calls to the generation capability (the call counter in the model). -/
theorem rewrite_query_no_history_noop :
    ∀ (gen : List Msg → Except String String) (system_prompt query : String),
      rewrite_query gen system_prompt query [] = (query, 0) := by
  intro gen system_prompt query
  rfl

/-- Claim C8: under identical filters, the dense search raises
`DBRecordNotFound` exactly when it has zero hits, while the sparse search
returns its (possibly empty) hit list without ever raising. -/
theorem knn_errs_bm25_returns_on_empty :
    ∀ (kb_ids : List String) (hits : List KBEntry),
      (knn_search kb_ids hits = Except.error (DBError.recordNotFound kb_ids) ↔
        hits = []) ∧
      bm25_search hits = Except.ok hits := by
  intro kb_ids hits
  refine ⟨?_, rfl⟩
  unfold knn_search
  cases hits with
  | nil => simp
  | cons h t => simp

-- ---------------------------------------------------------------------------
-- Theorems: index naming (C9)
-- ---------------------------------------------------------------------------

/-- Claim C9 counterexample: the claim says the model name is normalized "by
folding every non-alphanumeric character to a separator" — under that rule
`"a(b"` and `"a.b"` would both fold their single non-alphanumeric character
to the same separator and yield the same index name.  The code only
translates the fixed set `ES_INDEX_REPLACE_CHARS` (which has `'.'` but not
`'('`), so the two index names differ: `"emb_a(b"` versus `"emb_a-b"`. -/
theorem get_index_name_not_alnum_folding :
    get_index_name "emb" "a(b" ≠ get_index_name "emb" "a.b" := by
  decide

/-- The normalization the code actually performs, stated as the amended claim
words it: `"text-embedding-3-large"` is special-cased to the legacy alias
`"openai-3-large"`; any other name has each character of the fixed set
`' "#*+,./:<>?\\_|'` replaced by `'-'` and is then lower-cased. -/
def amended_normalize (m : String) : String :=
  if m = "text-embedding-3-large" then "openai-3-large"
  else
    String.mk (m.toList.map
      (fun c => Char.toLower (if c ∈ ES_INDEX_REPLACE_CHARS then '-' else c)))

/-- Claim C9 (amended): for every embedding model name, `get_index_name`
returns the configured base name joined by `'_'` to the amended
normalization of the model name, and `get_index_name_highlights` does the
same over the highlights base name. -/
theorem get_index_name_amended :
    ∀ (base base_hl model_name : String),
      get_index_name base model_name =
        base ++ "_" ++ amended_normalize model_name ∧
      get_index_name_highlights base_hl model_name =
        base_hl ++ "_" ++ amended_normalize model_name := by
  intro base base_hl model_name
  unfold get_index_name get_index_name_highlights normalize_model_name amended_normalize
  by_cases h : model_name = "text-embedding-3-large" <;>
    simp [h, List.map_map, Function.comp_def]

-- ---------------------------------------------------------------------------
-- Theorems: the L1 selection rule of fetch_highlight_spans (C5)
-- ---------------------------------------------------------------------------

theorem filter_enumFrom_below {α : Type} (p : α → Bool) :
    ∀ (l : List α) (k j : Nat), j ≤ k →
      ((l.enumFrom k).filter (fun q => decide (q.1 < j) && p q.2)) = [] := by
  intro l
  induction l with
  | nil => intro k j _; rfl
  | cons x xs ih =>
    intro k j hjk
    simp only [List.enumFrom, List.filter]
    have : decide (k < j) = false := by
      simp only [decide_eq_false_iff_not]
      omega
    rw [this]
    simpa using ih (k + 1) j (by omega)

theorem filter_enumFrom_take {α : Type} (p : α → Bool) :
    ∀ (l : List α) (k n : Nat),
      (((l.enumFrom k).filter (fun q => decide (q.1 < k + n) && p q.2)).map Prod.snd)
        = (l.take n).filter p := by
  intro l
  induction l with
  | nil => intro k n; simp
  | cons x xs ih =>
    intro k n
    cases n with
    | zero =>
      rw [filter_enumFrom_below p (x :: xs) k (k + 0) (by omega)]
      rfl
    | succ m =>
      simp only [List.enumFrom, List.filter]
      have hk : decide (k < k + (m + 1)) = true := by
        simp only [decide_eq_true_eq]
        omega
      rw [hk]
      have harith : k + (m + 1) = (k + 1) + m := by omega
      rw [harith]
      cases hpx : p x with
      | true =>
        simp only [Bool.true_and, List.take, List.filter, hpx, List.map]
        rw [ih (k + 1) m]
      | false =>
        simp only [Bool.true_and, List.take, List.filter, hpx]
        rw [ih (k + 1) m]

/-- L1 score lists of the specification's two worked examples. -/
def exL1a : List L1Hit :=
  [L1Hit.mk (some (9/10)) "", L1Hit.mk (some (8/10)) "",
   L1Hit.mk (some (3/10)) "", L1Hit.mk (some (2/100)) ""]

def exL1b : List L1Hit := [L1Hit.mk (some (9/10)) "", L1Hit.mk (some (2/100)) ""]

/-- Claim C5: the kept L1 children are exactly the intersection of the top
half of the descending-sorted list (floor division, minimum one) with the
entries at or above the 0.05 floor; on scores `[0.9, 0.8, 0.3, 0.02]` the
kept scores are `[0.9, 0.8]`, and on `[0.9, 0.02]` they are `[0.9]`. -/
theorem select_l1_top_is_half_floor_intersection :
    (∀ l1_all : List L1Hit, select_l1_top l1_all = select_l1_spec l1_all) ∧
    (select_l1_top exL1a).map l1Key = [9/10, 8/10] ∧
    (select_l1_top exL1b).map l1Key = [9/10] := by
  refine ⟨?_, by norm_num [select_l1_top, exL1a, sortDesc, insertDesc, l1Key],
    by norm_num [select_l1_top, exL1b, sortDesc, insertDesc, l1Key]⟩
  intro l1_all
  unfold select_l1_top select_l1_spec
  cases hs : sortDesc l1Key l1_all with
  | nil => rfl
  | cons y ys =>
    simp only [List.isEmpty_cons, if_neg]
    have h := filter_enumFrom_take (fun x => decide ((1 : ℚ)/20 ≤ l1Key x)) (y :: ys) 0
      (max 1 ((y :: ys).length / 2))
    simp only [Nat.zero_add] at h
    rw [List.enum, ← h]
    simp

-- ---------------------------------------------------------------------------
-- Theorems: the worked RRF example (C4)
-- ---------------------------------------------------------------------------

/-- The example's cosine-ranked hits `[A, B, C]` (with arbitrary native
scores and payloads). -/
def rrf_ex_cos : List KBEntry :=
  [KBEntry.mk "A" (1/2) "pa", KBEntry.mk "B" (1/3) "pb", KBEntry.mk "C" (1/4) "pc"]

/-- The example's BM25-ranked hits `[B, A, D]`. -/
def rrf_ex_bm : List KBEntry :=
  [KBEntry.mk "B" (7/10) "pb", KBEntry.mk "A" (3/5) "pa", KBEntry.mk "D" (1/5) "pd"]

/-- The fused output on the example. -/
def rrf_ex : List KBEntry := reciprocal_rank_fusion rrf_ex_cos rrf_ex_bm 60

/-- Claim C4 counterexample: the claim puts `score(D) = 1/62` and has `D`
outrank `C`; in the code `D` sits at rank 3 of the BM25 list, so its fused
score is `1/(3+60) = 1/63` — equal to `C`'s, not `1/62` — and `C` precedes
`D` in the output (ties keep the `ranks` dictionary's insertion order, which
lists the cosine ids first). -/
theorem rrf_example_d_score_refuted :
    ¬ ((rrf_ex.find? (fun e => e.id = "D")).map KBEntry.score = some (1/62)) ∧
    ¬ (List.indexOf "D" (rrf_ex.map KBEntry.id) <
        List.indexOf "C" (rrf_ex.map KBEntry.id)) := by
  have hev : rrf_ex.map (fun e => (e.id, e.score)) =
      [("A", 1/61 + 1/62), ("B", 1/62 + 1/61), ("C", 1/63), ("D", 1/63)] := by
    norm_num [rrf_ex, rrf_ex_cos, rrf_ex_bm, reciprocal_rank_fusion, rrf_scores,
      rrf_ranks, assignCosRanks, assignBmRanks, updAssoc, rrf_score, sortDesc,
      insertDesc, rrf_pick, List.find?] <;>
      simp [String.reduceEq]
  constructor
  · intro hfind
    have h : rrf_ex.find? (fun e => e.id = "D") =
        some (KBEntry.mk "D" (1/63) "pd") := by
      norm_num [rrf_ex, rrf_ex_cos, rrf_ex_bm, reciprocal_rank_fusion, rrf_scores,
        rrf_ranks, assignCosRanks, assignBmRanks, updAssoc, rrf_score, sortDesc,
        insertDesc, rrf_pick, List.find?] <;>
        simp [String.reduceEq]
    rw [h] at hfind
    simp at hfind
  · intro hlt
    have hids : rrf_ex.map KBEntry.id = ["A", "B", "C", "D"] := by
      have := congrArg (List.map Prod.fst) hev
      simpa [List.map_map, Function.comp_def] using this
    rw [hids] at hlt
    simp [List.indexOf, List.findIdx, List.findIdx.go] at hlt

/-- Claim C4 (amended): on cosine-ranked `[A, B, C]` and BM25-ranked
`[B, A, D]` with `c = 60`, the fused output is `A, B, C, D` with
`score(A) = 1/61 + 1/62`, `score(B) = 1/62 + 1/61` (tied with `A`),
`score(C) = 1/63` and `score(D) = 1/63`: `D` ties with `C` rather than
outranking it, and the tie is broken by the insertion order (cosine ids
first), leaving `A`/`B` tied on top and `C` before `D`. -/
theorem rrf_example_amended :
    rrf_ex.map (fun e => (e.id, e.score)) =
      [("A", 1/61 + 1/62), ("B", 1/62 + 1/61), ("C", 1/63), ("D", 1/63)] := by
  norm_num [rrf_ex, rrf_ex_cos, rrf_ex_bm, reciprocal_rank_fusion, rrf_scores,
    rrf_ranks, assignCosRanks, assignBmRanks, updAssoc, rrf_score, sortDesc,
    insertDesc, rrf_pick, List.find?] <;>
    simp [String.reduceEq]

-- ---------------------------------------------------------------------------
-- Lemmas about the stable descending sort
-- ---------------------------------------------------------------------------

theorem insertDesc_perm (key : α → ℚ) (x : α) :
    ∀ l : List α, (insertDesc key x l).Perm (x :: l) := by
  intro l
  induction l with
  | nil => simp [insertDesc]
  | cons y ys ih =>
    unfold insertDesc
    by_cases h : key x < key y
    · simp only [if_pos h]
      exact ((ih.cons y).trans (List.Perm.swap x y ys))
    · simp [if_neg h]

theorem sortDesc_perm (key : α → ℚ) :
    ∀ l : List α, (sortDesc key l).Perm l := by
  intro l
  induction l with
  | nil => simp [sortDesc]
  | cons x xs ih =>
    exact (insertDesc_perm key x (sortDesc key xs)).trans (ih.cons x)

theorem insertDesc_sorted (key : α → ℚ) (x : α) (l : List α)
    (hl : l.Pairwise (fun a b => key b ≤ key a)) :
    (insertDesc key x l).Pairwise (fun a b => key b ≤ key a) := by
  induction l with
  | nil => simp [insertDesc]
  | cons y ys ih =>
    unfold insertDesc
    rcases List.pairwise_cons.mp hl with ⟨hy, hys⟩
    by_cases h : key x < key y
    · simp only [if_pos h]
      refine List.pairwise_cons.mpr ⟨?_, ih hys⟩
      intro b hb
      have hb2 := (insertDesc_perm key x ys).mem_iff.mp hb
      rcases List.mem_cons.mp hb2 with hbx | hby
      · exact hbx ▸ le_of_lt h
      · exact hy b hby
    · simp only [if_neg h]
      refine List.pairwise_cons.mpr ⟨?_, hl⟩
      intro b hb
      rcases List.mem_cons.mp hb with hby | hbys
      · exact hby ▸ not_lt.mp h
      · exact le_trans (hy b hbys) (not_lt.mp h)

theorem sortDesc_sorted (key : α → ℚ) :
    ∀ l : List α, (sortDesc key l).Pairwise (fun a b => key b ≤ key a) := by
  intro l
  induction l with
  | nil => simp [sortDesc]
  | cons x xs ih => exact insertDesc_sorted key x (sortDesc key xs) ih

theorem insertDesc_filter_key (key : α → ℚ) (x : α) (q : ℚ) :
    ∀ l : List α,
      (insertDesc key x l).filter (fun a => key a = q) =
        if key x = q then x :: l.filter (fun a => key a = q)
        else l.filter (fun a => key a = q) := by
  intro l
  induction l with
  | nil =>
    simp only [insertDesc, List.filter]
    by_cases hx : key x = q <;> simp [hx]
  | cons y ys ih =>
    unfold insertDesc
    by_cases h : key x < key y
    · simp only [if_pos h]
      by_cases hx : key x = q
      · have hy : ¬ (key y = q) := by
          intro hyq
          rw [hx, hyq] at h
          exact lt_irrefl q h
        simp [List.filter, hx, hy, ih]
      · simp [List.filter, hx, ih]
    · simp only [if_neg h]
      by_cases hx : key x = q <;> simp [List.filter, hx]

theorem sortDesc_filter_key (key : α → ℚ) (q : ℚ) :
    ∀ l : List α,
      (sortDesc key l).filter (fun a => key a = q) =
        l.filter (fun a => key a = q) := by
  intro l
  induction l with
  | nil => rfl
  | cons x xs ih =>
    unfold sortDesc
    rw [insertDesc_filter_key]
    by_cases hx : key x = q <;> simp [List.filter, hx, ih]

-- ---------------------------------------------------------------------------
-- Lemmas about the insertion-ordered ranks dictionary
-- ---------------------------------------------------------------------------

/-- Dictionary lookup on the insertion-ordered association list. -/
def lookupRank (a : List (String × RankPair)) (k : String) : Option RankPair :=
  (a.find? (fun p => p.1 = k)).map Prod.snd

/-- The specification's rank of an id within one hit list: one plus its
first-occurrence index, if present. -/
def rankOpt (l : List KBEntry) (k : String) : Option Nat :=
  (l.findIdx? (fun e => e.id = k)).map (· + 1)

theorem updAssoc_keys_mem (f : RankPair → RankPair) (id k : String) :
    ∀ a, k ∈ (updAssoc f id a).map Prod.fst ↔ k ∈ a.map Prod.fst ∨ k = id := by
  intro a
  induction a with
  | nil => simp [updAssoc]
  | cons kv rest ih =>
    unfold updAssoc
    by_cases h : kv.1 = id
    · rw [if_pos h]
      subst h
      simp only [List.map_cons, List.mem_cons]
      tauto
    · rw [if_neg h]
      simp only [List.map_cons, List.mem_cons, ih]
      tauto

theorem updAssoc_keys_nodup (f : RankPair → RankPair) (id : String) :
    ∀ a, (a.map Prod.fst).Nodup → ((updAssoc f id a).map Prod.fst).Nodup := by
  intro a
  induction a with
  | nil => simp [updAssoc]
  | cons kv rest ih =>
    intro hnd
    simp only [List.map_cons, List.nodup_cons] at hnd
    unfold updAssoc
    by_cases h : kv.1 = id
    · rw [if_pos h]
      simp only [List.map_cons, List.nodup_cons]
      exact hnd
    · rw [if_neg h]
      simp only [List.map_cons, List.nodup_cons]
      refine ⟨?_, ih hnd.2⟩
      rw [updAssoc_keys_mem]
      push_neg
      exact ⟨hnd.1, h⟩

theorem lookupRank_updAssoc_self (f : RankPair → RankPair) (id : String) :
    ∀ a, lookupRank (updAssoc f id a) id =
      some (f ((lookupRank a id).getD (none, none))) := by
  intro a
  induction a with
  | nil => simp [updAssoc, lookupRank, List.find?]
  | cons kv rest ih =>
    unfold updAssoc
    by_cases h : kv.1 = id
    · rw [if_pos h]
      simp [lookupRank, List.find?, h]
    · rw [if_neg h]
      simp only [lookupRank, List.find?] at ih ⊢
      have hd : (decide (kv.1 = id)) = false := by simp [h]
      rw [hd]
      exact ih

theorem lookupRank_updAssoc_other (f : RankPair → RankPair) (id k : String)
    (hk : k ≠ id) :
    ∀ a, lookupRank (updAssoc f id a) k = lookupRank a k := by
  intro a
  induction a with
  | nil =>
    have hd : (decide (id = k)) = false := by simp [Ne.symm hk]
    simp [updAssoc, lookupRank, List.find?, hd]
  | cons kv rest ih =>
    unfold updAssoc
    by_cases h : kv.1 = id
    · rw [if_pos h]
      have h2 : ¬ (kv.1 = k) := by rw [h]; exact fun hh => hk hh.symm
      simp [lookupRank, List.find?, h2]
    · rw [if_neg h]
      by_cases h2 : kv.1 = k
      · simp [lookupRank, List.find?, h2]
      · have hd : (decide (kv.1 = k)) = false := by simp [h2]
        simp only [lookupRank, List.find?, hd]
        exact ih

theorem notMem_findIdx?_eq_none (k : String) (es : List KBEntry)
    (h : k ∉ es.map KBEntry.id) :
    es.findIdx? (fun e => e.id = k) = none := by
  rw [List.findIdx?_eq_none_iff]
  intro e he
  simp only [decide_eq_false_iff_not]
  intro hek
  exact h (List.mem_map.mpr ⟨e, he, hek⟩)

theorem assignCos_lookup_notmem (k : String) :
    ∀ (es : List KBEntry) (i : Nat) (a), k ∉ es.map KBEntry.id →
      lookupRank (assignCosRanks es i a) k = lookupRank a k := by
  intro es
  induction es with
  | nil => intro i a _; rfl
  | cons e es' ih =>
    intro i a h
    simp only [List.map_cons, List.mem_cons] at h
    push_neg at h
    unfold assignCosRanks
    rw [ih _ _ h.2, lookupRank_updAssoc_other _ _ _ h.1]

theorem assignBm_lookup_notmem (k : String) :
    ∀ (es : List KBEntry) (i : Nat) (a), k ∉ es.map KBEntry.id →
      lookupRank (assignBmRanks es i a) k = lookupRank a k := by
  intro es
  induction es with
  | nil => intro i a _; rfl
  | cons e es' ih =>
    intro i a h
    simp only [List.map_cons, List.mem_cons] at h
    push_neg at h
    unfold assignBmRanks
    rw [ih _ _ h.2, lookupRank_updAssoc_other _ _ _ h.1]

theorem assignCos_lookup_mem (k : String) :
    ∀ (es : List KBEntry) (i j : Nat) (a),
      (es.map KBEntry.id).Nodup →
      es.findIdx? (fun e => e.id = k) = some j →
      lookupRank (assignCosRanks es i a) k =
        some (some (i + j + 1), ((lookupRank a k).getD (none, none)).2) := by
  intro es
  induction es with
  | nil => intro i j a _ hj; simp [List.findIdx?] at hj
  | cons e es' ih =>
    intro i j a hnd hj
    simp only [List.map_cons, List.nodup_cons] at hnd
    rw [List.findIdx?_cons] at hj
    unfold assignCosRanks
    by_cases he : e.id = k
    · rw [if_pos (by simp [he])] at hj
      have hj0 : j = 0 := by
        have := hj
        simp only [Option.some_inj] at this
        omega
      subst hj0
      have hnm : k ∉ es'.map KBEntry.id := he ▸ hnd.1
      rw [assignCos_lookup_notmem k es' (i + 1) _ hnm, he,
        lookupRank_updAssoc_self]
    · rw [if_neg (by simp [he]), List.findIdx?_succ] at hj
      rcases Option.map_eq_some'.mp hj with ⟨j', hj', rfl⟩
      rw [ih (i + 1) j' _ hnd.2 hj',
        lookupRank_updAssoc_other _ _ _ (fun hk => he hk.symm)]
      have harith : i + 1 + j' + 1 = i + (j' + 1) + 1 := by omega
      rw [harith]

theorem assignBm_lookup_mem (k : String) :
    ∀ (es : List KBEntry) (i j : Nat) (a),
      (es.map KBEntry.id).Nodup →
      es.findIdx? (fun e => e.id = k) = some j →
      lookupRank (assignBmRanks es i a) k =
        some (((lookupRank a k).getD (none, none)).1, some (i + j + 1)) := by
  intro es
  induction es with
  | nil => intro i j a _ hj; simp [List.findIdx?] at hj
  | cons e es' ih =>
    intro i j a hnd hj
    simp only [List.map_cons, List.nodup_cons] at hnd
    rw [List.findIdx?_cons] at hj
    unfold assignBmRanks
    by_cases he : e.id = k
    · rw [if_pos (by simp [he])] at hj
      have hj0 : j = 0 := by
        have := hj
        simp only [Option.some_inj] at this
        omega
      subst hj0
      have hnm : k ∉ es'.map KBEntry.id := he ▸ hnd.1
      rw [assignBm_lookup_notmem k es' (i + 1) _ hnm, he,
        lookupRank_updAssoc_self]
    · rw [if_neg (by simp [he]), List.findIdx?_succ] at hj
      rcases Option.map_eq_some'.mp hj with ⟨j', hj', rfl⟩
      rw [ih (i + 1) j' _ hnd.2 hj',
        lookupRank_updAssoc_other _ _ _ (fun hk => he hk.symm)]
      have harith : i + 1 + j' + 1 = i + (j' + 1) + 1 := by omega
      rw [harith]

theorem assignCos_keys_mem (k : String) :
    ∀ (es : List KBEntry) (i : Nat) (a),
      k ∈ (assignCosRanks es i a).map Prod.fst ↔
        k ∈ a.map Prod.fst ∨ k ∈ es.map KBEntry.id := by
  intro es
  induction es with
  | nil => intro i a; simp [assignCosRanks]
  | cons e es' ih =>
    intro i a
    unfold assignCosRanks
    rw [ih]
    rw [updAssoc_keys_mem]
    simp only [List.map_cons, List.mem_cons]
    tauto

theorem assignBm_keys_mem (k : String) :
    ∀ (es : List KBEntry) (i : Nat) (a),
      k ∈ (assignBmRanks es i a).map Prod.fst ↔
        k ∈ a.map Prod.fst ∨ k ∈ es.map KBEntry.id := by
  intro es
  induction es with
  | nil => intro i a; simp [assignBmRanks]
  | cons e es' ih =>
    intro i a
    unfold assignBmRanks
    rw [ih]
    rw [updAssoc_keys_mem]
    simp only [List.map_cons, List.mem_cons]
    tauto

theorem assignCos_keys_nodup :
    ∀ (es : List KBEntry) (i : Nat) (a),
      (a.map Prod.fst).Nodup → ((assignCosRanks es i a).map Prod.fst).Nodup := by
  intro es
  induction es with
  | nil => intro i a h; exact h
  | cons e es' ih =>
    intro i a h
    exact ih _ _ (updAssoc_keys_nodup _ _ _ h)

theorem assignBm_keys_nodup :
    ∀ (es : List KBEntry) (i : Nat) (a),
      (a.map Prod.fst).Nodup → ((assignBmRanks es i a).map Prod.fst).Nodup := by
  intro es
  induction es with
  | nil => intro i a h; exact h
  | cons e es' ih =>
    intro i a h
    exact ih _ _ (updAssoc_keys_nodup _ _ _ h)

theorem mem_findIdx?_some (k : String) (es : List KBEntry)
    (h : k ∈ es.map KBEntry.id) :
    ∃ j, es.findIdx? (fun e => e.id = k) = some j := by
  have hs : (es.findIdx? (fun e => e.id = k)).isSome = true := by
    rw [List.findIdx?_isSome, List.any_eq_true]
    rcases List.mem_map.mp h with ⟨e, he, hek⟩
    exact ⟨e, he, by simp [hek]⟩
  exact Option.isSome_iff_exists.mp hs

/-- The fully built `ranks` dictionary at key `k`: the pair of
first-occurrence ranks of `k` in the two hit lists, present exactly when `k`
appears in at least one list. -/
theorem rrf_ranks_lookup (cos bm : List KBEntry) (k : String)
    (hc : (cos.map KBEntry.id).Nodup) (hb : (bm.map KBEntry.id).Nodup) :
    lookupRank (rrf_ranks cos bm) k =
      if k ∈ cos.map KBEntry.id ∨ k ∈ bm.map KBEntry.id
      then some (rankOpt cos k, rankOpt bm k)
      else none := by
  unfold rrf_ranks
  by_cases hkb : k ∈ bm.map KBEntry.id
  · rcases mem_findIdx?_some k bm hkb with ⟨j, hj⟩
    rw [assignBm_lookup_mem k bm 0 j _ hb hj]
    by_cases hkc : k ∈ cos.map KBEntry.id
    · rcases mem_findIdx?_some k cos hkc with ⟨j', hj'⟩
      rw [assignCos_lookup_mem k cos 0 j' _ hc hj']
      rw [if_pos (Or.inl hkc)]
      simp [rankOpt, hj, hj', lookupRank, List.find?]
    · rw [assignCos_lookup_notmem k cos 0 _ hkc]
      rw [if_pos (Or.inr hkb)]
      simp [rankOpt, hj, notMem_findIdx?_eq_none k cos hkc, lookupRank, List.find?]
  · rw [assignBm_lookup_notmem k bm 0 _ hkb]
    by_cases hkc : k ∈ cos.map KBEntry.id
    · rcases mem_findIdx?_some k cos hkc with ⟨j', hj'⟩
      rw [assignCos_lookup_mem k cos 0 j' _ hc hj']
      rw [if_pos (Or.inl hkc)]
      simp [rankOpt, hj', notMem_findIdx?_eq_none k bm hkb, lookupRank, List.find?]
    · rw [assignCos_lookup_notmem k cos 0 _ hkc]
      rw [if_neg (by tauto)]
      rfl

theorem mem_assoc_iff_lookup (k : String) (v : RankPair) :
    ∀ (a : List (String × RankPair)), (a.map Prod.fst).Nodup →
      ((k, v) ∈ a ↔ lookupRank a k = some v) := by
  intro a
  induction a with
  | nil => intro _; simp [lookupRank, List.find?]
  | cons kv rest ih =>
    intro hnd
    simp only [List.map_cons, List.nodup_cons] at hnd
    by_cases h : kv.1 = k
    · constructor
      · intro hm
        rcases List.mem_cons.mp hm with rfl | hm'
        · simp [lookupRank, List.find?]
        · exfalso
          exact hnd.1 (h ▸ List.mem_map.mpr ⟨(k, v), hm', rfl⟩)
      · intro hl
        simp [lookupRank, List.find?, h] at hl
        have hkv : (k, v) = kv := by
          cases kv
          simp_all
        rw [← hkv] at *
        exact List.mem_cons_self _ _
    · have hd : (decide (kv.1 = k)) = false := by simp [h]
      constructor
      · intro hm
        rcases List.mem_cons.mp hm with rfl | hm'
        · exact absurd rfl h
        · simp only [lookupRank, List.find?, hd]
          exact (ih hnd.2).mp hm'
      · intro hl
        simp only [lookupRank, List.find?, hd] at hl
        exact List.mem_cons_of_mem _ ((ih hnd.2).mpr hl)

theorem rrf_pick_id (all : List KBEntry) (p : String × ℚ) :
    (rrf_pick all p).id = p.1 := by
  unfold rrf_pick
  cases hf : all.reverse.find? (fun e => e.id = p.1) with
  | none => rfl
  | some e =>
    have he := List.find?_some hf
    simp only [decide_eq_true_eq] at he
    simp [he]

theorem rrf_pick_score (all : List KBEntry) (p : String × ℚ) :
    (rrf_pick all p).score = p.2 := by
  unfold rrf_pick
  cases hf : all.reverse.find? (fun e => e.id = p.1) with
  | none => rfl
  | some e => rfl

theorem rrf_pick_source (all : List KBEntry) (p : String × ℚ)
    (h : p.1 ∈ all.map KBEntry.id) :
    ∃ o ∈ all, o.id = p.1 ∧ o.source = (rrf_pick all p).source := by
  rcases List.mem_map.mp h with ⟨o0, ho0, ho0id⟩
  have hsome : (all.reverse.find? (fun e => e.id = p.1)).isSome = true := by
    rw [List.find?_isSome]
    exact ⟨o0, List.mem_reverse.mpr ho0, by simp [ho0id]⟩
  rcases Option.isSome_iff_exists.mp hsome with ⟨e, he⟩
  have hid := List.find?_some he
  simp only [decide_eq_true_eq] at hid
  have hmem : e ∈ all := List.mem_reverse.mp (List.mem_of_find?_eq_some he)
  refine ⟨e, hmem, hid, ?_⟩
  unfold rrf_pick
  rw [he]

/-- The fused score the dictionary value yields equals the specification's
first-occurrence-rank formula. -/
theorem rrf_score_eq_spec (cos bm : List KBEntry) (k : String) :
    rrf_score 60 (rankOpt cos k, rankOpt bm k) = rrf_spec_score 60 cos bm k := by
  unfold rrf_score rrf_spec_score rankOpt
  cases hc : cos.findIdx? (fun e => e.id = k) with
  | none => cases hb : bm.findIdx? (fun e => e.id = k) with
    | none => simp
    | some j => simp
  | some j' => cases hb : bm.findIdx? (fun e => e.id = k) with
    | none => simp
    | some j => simp

/-- Claim C1: with duplicate-free ids within each input list (a search
engine returns each document at most once per list), the fused output has
exactly one entry per distinct id of either list; each entry's score is the
specification's `Σ 1/(rank + c)` over the lists its id appears in (ranks
from 1, `c = 60`), overwriting the carried native score of a hit taken from
the inputs; and the output is ordered by fused score descending with ties in
the `ranks` dictionary's insertion order. -/
theorem reciprocal_rank_fusion_contract
    (cos bm : List KBEntry)
    (hc : (cos.map KBEntry.id).Nodup) (hb : (bm.map KBEntry.id).Nodup) :
    ((reciprocal_rank_fusion cos bm 60).map KBEntry.id).Nodup ∧
    (∀ k, k ∈ (reciprocal_rank_fusion cos bm 60).map KBEntry.id ↔
      k ∈ cos.map KBEntry.id ∨ k ∈ bm.map KBEntry.id) ∧
    (∀ e ∈ reciprocal_rank_fusion cos bm 60,
      e.score = rrf_spec_score 60 cos bm e.id ∧
      ∃ o ∈ cos ++ bm, o.id = e.id ∧ o.source = e.source) ∧
    (reciprocal_rank_fusion cos bm 60).Pairwise (fun a b => b.score ≤ a.score) ∧
    (∀ q : ℚ, (reciprocal_rank_fusion cos bm 60).filter (fun e => e.score = q) =
      (rrf_insertion_list cos bm 60).filter (fun e => e.score = q)) := by
  have hids_map : ∀ l : List (String × ℚ),
      (l.map (rrf_pick (cos ++ bm))).map KBEntry.id = l.map Prod.fst := by
    intro l
    rw [List.map_map]
    exact List.map_congr_left (fun p _ => rrf_pick_id _ p)
  have hscores_fst : (rrf_scores 60 cos bm).map Prod.fst =
      (rrf_ranks cos bm).map Prod.fst := by
    unfold rrf_scores
    rw [List.map_map]
    rfl
  have hkeysnodup : ((rrf_ranks cos bm).map Prod.fst).Nodup :=
    assignBm_keys_nodup bm 0 _ (assignCos_keys_nodup cos 0 [] (by simp))
  have hkeys_mem : ∀ k, k ∈ (rrf_ranks cos bm).map Prod.fst ↔
      k ∈ cos.map KBEntry.id ∨ k ∈ bm.map KBEntry.id := by
    intro k
    unfold rrf_ranks
    rw [assignBm_keys_mem, assignCos_keys_mem]
    simp
  have hperm : (sortDesc (fun p => p.2) (rrf_scores 60 cos bm)).Perm
      (rrf_scores 60 cos bm) := sortDesc_perm _ _
  have hfused_ids : (reciprocal_rank_fusion cos bm 60).map KBEntry.id =
      (sortDesc (fun p => p.2) (rrf_scores 60 cos bm)).map Prod.fst := by
    unfold reciprocal_rank_fusion
    exact hids_map _
  refine ⟨?_, ?_, ?_, ?_, ?_⟩
  · rw [hfused_ids]
    rw [(hperm.map Prod.fst).nodup_iff]
    rw [hscores_fst]
    exact hkeysnodup
  · intro k
    rw [hfused_ids]
    rw [(hperm.map Prod.fst).mem_iff]
    rw [hscores_fst]
    exact hkeys_mem k
  · intro e he
    unfold reciprocal_rank_fusion at he
    rcases List.mem_map.mp he with ⟨p, hp, rfl⟩
    have hp2 : p ∈ rrf_scores 60 cos bm := hperm.mem_iff.mp hp
    unfold rrf_scores at hp2
    rcases List.mem_map.mp hp2 with ⟨⟨k, pr⟩, hkpr, rfl⟩
    dsimp only
    have hlk : lookupRank (rrf_ranks cos bm) k = some pr :=
      (mem_assoc_iff_lookup k pr _ hkeysnodup).mp hkpr
    rw [rrf_ranks_lookup cos bm k hc hb] at hlk
    by_cases hku : k ∈ cos.map KBEntry.id ∨ k ∈ bm.map KBEntry.id
    · rw [if_pos hku] at hlk
      simp only [Option.some_inj] at hlk
      constructor
      · rw [rrf_pick_score, rrf_pick_id, ← hlk]
        exact rrf_score_eq_spec cos bm k
      · have hkin : k ∈ (cos ++ bm).map KBEntry.id := by
          rw [List.map_append, List.mem_append]
          exact hku
        rcases rrf_pick_source (cos ++ bm) (k, rrf_score 60 pr) hkin with
          ⟨o, ho, hoid, hos⟩
        exact ⟨o, ho, by rw [rrf_pick_id]; exact hoid, hos⟩
    · rw [if_neg hku] at hlk
      exact absurd hlk (by simp)
  · unfold reciprocal_rank_fusion
    rw [List.pairwise_map]
    refine (sortDesc_sorted (fun p => p.2) (rrf_scores 60 cos bm)).imp ?_
    intro a b hab
    rw [rrf_pick_score, rrf_pick_score]
    exact hab
  · intro q
    unfold reciprocal_rank_fusion rrf_insertion_list
    rw [List.filter_map, List.filter_map]
    have hcongr : ∀ l : List (String × ℚ),
        l.filter ((fun e => decide (e.score = q)) ∘ rrf_pick (cos ++ bm)) =
          l.filter (fun p => decide (p.2 = q)) := by
      intro l
      apply List.filter_congr
      intro p _
      simp [Function.comp, rrf_pick_score]
    rw [hcongr, hcongr]
    exact congrArg _ (sortDesc_filter_key (fun p => p.2) q (rrf_scores 60 cos bm))

/-- Witness for `reciprocal_rank_fusion_contract` at the concrete example
input (both id lists are duplicate-free there). -/
theorem reciprocal_rank_fusion_contract_witness :
    (rrf_ex_cos.map KBEntry.id).Nodup ∧ (rrf_ex_bm.map KBEntry.id).Nodup ∧
    ((reciprocal_rank_fusion rrf_ex_cos rrf_ex_bm 60).map KBEntry.id).Nodup :=
  ⟨by decide, by decide,
    (reciprocal_rank_fusion_contract rrf_ex_cos rrf_ex_bm
      (by decide) (by decide)).1⟩

-- ---------------------------------------------------------------------------
-- Theorems: the sliding-window fallback never terminates with a positive
-- overlap (C3)
-- ---------------------------------------------------------------------------

/-- With `overlap > 0`, once the window loop is entered (`start < n`) it can
never leave: the next start is `min(start + chunk_size, n) - overlap`, and
the exit test `start >= n` would need `n <= n - overlap`.  Every fuel bound
is exhausted. -/
theorem windowLoop_overlap_pos_none (text : Text) (cs ov : Nat) (hov : 0 < ov) :
    ∀ (f s : Nat), s < text.length → windowLoop text cs ov f s = none := by
  intro f
  induction f with
  | zero => intro s _; rfl
  | succ f ih =>
    intro s hs
    unfold windowLoop
    rw [if_pos hs]
    have hlt : (if 0 < ov then min (s + cs) text.length - ov
        else min (s + cs) text.length) < text.length := by
      rw [if_pos hov]
      omega
    rw [if_neg (by omega)]
    rw [ih _ hlt]
    rfl

/-- Whenever `split_text_simple` reaches the sliding-window fallback on an
oversized text with a positive overlap, it never returns. -/
theorem split_text_simple_window_overlap_diverges
    (cs ov : Nat) (seps : List Text) (text : Text)
    (hov : 0 < ov) (hlen : cs < text.length)
    (hsep : findSep text seps = SepScan.window) :
    ∀ wfuel, split_text_simple cs ov wfuel seps text = none := by
  intro wfuel
  have h0 : 0 < text.length := by omega
  cases seps with
  | nil =>
    unfold split_text_simple
    rw [if_neg (by omega), hsep]
    exact windowLoop_overlap_pos_none text cs ov hov wfuel 0 h0
  | cons sep rest =>
    unfold split_text_simple
    rw [if_neg (by omega), hsep]
    exact windowLoop_overlap_pos_none text cs ov hov wfuel 0 h0

/-- Claim C3 failing input: `split_text_simple("abc", chunk_size=2,
overlap=1, separators=[])`.  The text exceeds the chunk size, no separator
applies, and the fallback loop loops forever (`start` reaches `2 = 3 - 1`
and then `end = 3`, `start = end - overlap = 2` again, appending the final
window each iteration): no fuel bound suffices, i.e. the call never returns. -/
theorem split_text_simple_concrete_divergence :
    ∀ wfuel, split_text_simple 2 1 wfuel [] ('a' :: 'b' :: 'c' :: []) = none := by
  intro wfuel
  exact split_text_simple_window_overlap_diverges 2 1 []
    ('a' :: 'b' :: 'c' :: []) (by omega) (by decide) rfl wfuel

-- ---------------------------------------------------------------------------
-- Fuel irrelevance: any two successful runs agree (C6)
-- ---------------------------------------------------------------------------

theorem windowLoop_mono (text : Text) (cs ov : Nat) :
    ∀ (f f' s : Nat) (r : List Text), f ≤ f' →
      windowLoop text cs ov f s = some r → windowLoop text cs ov f' s = some r := by
  intro f
  induction f with
  | zero => intro f' s r _ h; exact absurd h (by simp [windowLoop])
  | succ f ih =>
    intro f' s r hle h
    cases f' with
    | zero => omega
    | succ f'' =>
      unfold windowLoop at h ⊢
      by_cases hs : s < text.length
      · rw [if_pos hs] at h ⊢
        by_cases hstop : text.length ≤
            (if 0 < ov then min (s + cs) text.length - ov else min (s + cs) text.length)
        · rw [if_pos hstop] at h ⊢
          exact h
        · rw [if_neg hstop] at h ⊢
          rcases Option.map_eq_some'.mp h with ⟨r', hr', hrr⟩
          rw [ih f'' _ r' (by omega) hr']
          simp [hrr]
      · rw [if_neg hs] at h ⊢
        exact h

theorem accumParts_mono (cs : Nat) (rec rec' : Text → Option (List Text))
    (sep : Text) (hrec : ∀ t r, rec t = some r → rec' t = some r) :
    ∀ (parts : List Text) (cur : Text) (out : List Text),
      accumParts cs rec sep parts cur = some out →
      accumParts cs rec' sep parts cur = some out := by
  intro parts
  induction parts with
  | nil => intro cur out h; exact h
  | cons part rest ih =>
    intro cur out h
    unfold accumParts at h ⊢
    by_cases hfit : cur.length + (part ++ (if rest = [] then [] else sep)).length ≤ cs
    · rw [if_pos hfit] at h ⊢
      exact ih _ _ h
    · rw [if_neg hfit] at h ⊢
      by_cases hbig : cs < (part ++ (if rest = [] then [] else sep)).length
      · rw [if_pos hbig] at h ⊢
        cases hr : rec (part ++ (if rest = [] then [] else sep)) with
        | none => rw [hr] at h; exact absurd h (by simp)
        | some sub =>
          rw [hr] at h
          rw [hrec _ _ hr]
          rcases Option.map_eq_some'.mp h with ⟨out2, hout2, hout⟩
          rw [ih _ _ hout2]
          simp [hout]
      · rw [if_neg hbig] at h ⊢
        rcases Option.map_eq_some'.mp h with ⟨out2, hout2, hout⟩
        rw [ih _ _ hout2]
        simp [hout]

theorem split_text_simple_mono (cs ov : Nat) :
    ∀ (seps : List Text) (f f' : Nat) (text : Text) (out : List Text), f ≤ f' →
      split_text_simple cs ov f seps text = some out →
      split_text_simple cs ov f' seps text = some out := by
  intro seps
  induction seps with
  | nil =>
    intro f f' text out hle h
    unfold split_text_simple at h ⊢
    by_cases hsmall : text.length ≤ cs
    · rw [if_pos hsmall] at h ⊢
      exact h
    · rw [if_neg hsmall] at h ⊢
      simp only [findSep] at h ⊢
      exact windowLoop_mono text cs ov f f' 0 out hle h
  | cons sep rest ih =>
    intro f f' text out hle h
    unfold split_text_simple at h ⊢
    by_cases hsmall : text.length ≤ cs
    · rw [if_pos hsmall] at h ⊢
      exact h
    · rw [if_neg hsmall] at h ⊢
      cases hscan : findSep text (sep :: rest) with
      | err => rw [hscan] at h; exact absurd h (by simp)
      | window =>
        rw [hscan] at h
        exact windowLoop_mono text cs ov f f' 0 out hle h
      | found s0 =>
        rw [hscan] at h
        exact accumParts_mono cs _ _ s0
          (fun t r hr => ih f f' t r hle hr) _ _ _ h

theorem create_chunks_from_text_mono (cs ov : Nat) (seps : List Text)
    (f f' : Nat) (text : Text) (out : List RelChunk) (hle : f ≤ f')
    (h : create_chunks_from_text cs ov seps f text = some out) :
    create_chunks_from_text cs ov seps f' text = some out := by
  unfold create_chunks_from_text at h ⊢
  by_cases hempty : strip text = []
  · rw [if_pos hempty] at h ⊢
    exact h
  · rw [if_neg hempty] at h ⊢
    rcases Option.map_eq_some'.mp h with ⟨texts, htexts, hout⟩
    rw [split_text_simple_mono cs ov seps f f' text texts hle htexts]
    simp [hout]

theorem l1ListFor_mono (cfg : ChunkCfg) (f f' : Nat) (t : Text)
    (out : List RelChunk) (hle : f ≤ f')
    (h : l1ListFor cfg f t = some out) : l1ListFor cfg f' t = some out := by
  unfold l1ListFor at h ⊢
  cases hc : create_chunks_from_text cfg.l1_size cfg.l1_overlap cfg.separators f t with
  | none => rw [hc] at h; exact absurd h (by simp)
  | some l1s =>
    rw [hc] at h
    rw [create_chunks_from_text_mono _ _ _ f f' t l1s hle hc]
    exact h

theorem l0Block_mono (cfg : ChunkCfg) (f f' : Nat) (doc_id : String)
    (l0_idx : Nat) (l0 : RelChunk) (out : List HChunk) (hle : f ≤ f')
    (h : l0Block cfg f doc_id l0_idx l0 = some out) :
    l0Block cfg f' doc_id l0_idx l0 = some out := by
  unfold l0Block at h ⊢
  rcases Option.map_eq_some'.mp h with ⟨l1s, hl1s, hout⟩
  rw [l1ListFor_mono cfg f f' _ l1s hle hl1s]
  simp [hout]

theorem l0Blocks_mono (cfg : ChunkCfg) (f f' : Nat) (doc_id : String)
    (hle : f ≤ f') :
    ∀ (l0s : List RelChunk) (i : Nat) (out : List HChunk),
      l0Blocks cfg f doc_id l0s i = some out →
      l0Blocks cfg f' doc_id l0s i = some out := by
  intro l0s
  induction l0s with
  | nil => intro i out h; exact h
  | cons l0 rest ih =>
    intro i out h
    unfold l0Blocks at h ⊢
    cases hb : l0Block cfg f doc_id i l0 with
    | none => rw [hb] at h; exact absurd h (by simp)
    | some b =>
      rw [hb] at h
      cases hbs : l0Blocks cfg f doc_id rest (i + 1) with
      | none => rw [hbs] at h; exact absurd h (by simp)
      | some bs =>
        rw [hbs] at h
        rw [l0Block_mono cfg f f' doc_id i l0 b hle hb, ih (i + 1) bs hbs]
        exact h

theorem docChunks_mono (cfg : ChunkCfg) (f f' : Nat) (doc : Document)
    (out : List HChunk) (hle : f ≤ f')
    (h : docChunks cfg f doc = some out) : docChunks cfg f' doc = some out := by
  unfold docChunks at h ⊢
  dsimp only at h ⊢
  cases hc : create_chunks_from_text cfg.l0_size cfg.l0_overlap cfg.separators f
      (preprocess_text_for_chunking doc.text) with
  | none => rw [hc] at h; exact absurd h (by simp)
  | some l0s =>
    rw [hc] at h
    rw [create_chunks_from_text_mono _ _ _ f f' _ l0s hle hc]
    exact l0Blocks_mono cfg f f' doc.id hle l0s 0 out h

theorem create_hierarchical_chunks_mono (cfg : ChunkCfg) (f f' : Nat)
    (hle : f ≤ f') :
    ∀ (docs : List Document) (out : List HChunk),
      create_hierarchical_chunks cfg f docs = some out →
      create_hierarchical_chunks cfg f' docs = some out := by
  intro docs
  induction docs with
  | nil => intro out h; exact h
  | cons doc rest ih =>
    intro out h
    rw [create_hierarchical_chunks] at h ⊢
    cases hd : docChunks cfg f doc with
    | none => rw [hd] at h; exact absurd h (by simp)
    | some a =>
      rw [hd] at h
      cases hr : create_hierarchical_chunks cfg f rest with
      | none => rw [hr] at h; exact absurd h (by simp)
      | some b =>
        rw [hr] at h
        rw [docChunks_mono cfg f f' doc a hle hd, ih b hr]
        exact h

/-- Claim C6: two runs of `create_hierarchical_chunks` on identical documents
and identical parameters that both return agree exactly — in particular on
every chunk's `(char_start, char_end)` boundaries and on the `chunk_id`
sequence.  (The runs are quantified over independent fuel budgets, so the
result does not depend on the budget either.) -/
theorem create_hierarchical_chunks_deterministic (cfg : ChunkCfg)
    (docs : List Document) (f1 f2 : Nat) (r1 r2 : List HChunk)
    (h1 : create_hierarchical_chunks cfg f1 docs = some r1)
    (h2 : create_hierarchical_chunks cfg f2 docs = some r2) :
    r1 = r2 ∧
    r1.map HChunk.chunk_id = r2.map HChunk.chunk_id ∧
    r1.map (fun c => (c.char_start, c.char_end)) =
      r2.map (fun c => (c.char_start, c.char_end)) := by
  have heq : r1 = r2 := by
    rcases le_total f1 f2 with hle | hle
    · have := create_hierarchical_chunks_mono cfg f1 f2 hle docs r1 h1
      rw [this] at h2
      exact Option.some_inj.mp h2
    · have := create_hierarchical_chunks_mono cfg f2 f1 hle docs r2 h2
      rw [this] at h1
      exact (Option.some_inj.mp h1).symm
  exact ⟨heq, by rw [heq], by rw [heq]⟩

/-- Concrete chunking configuration and document for the witnesses. -/
def cfgW : ChunkCfg := ChunkCfg.mk 8 0 3 0 [[' ']]

def docW : Document := Document.mk "d" ("SOURCE FILE: f.pdf\n\naa bb cc dd".toList)

/-- Witness for `create_hierarchical_chunks_deterministic`: a run with fuel
20 and a run with fuel 30 on the same document agree. -/
theorem create_hierarchical_chunks_deterministic_witness :
    ((create_hierarchical_chunks cfgW 20 [docW]).getD []).map HChunk.chunk_id =
      ((create_hierarchical_chunks cfgW 30 [docW]).getD []).map HChunk.chunk_id :=
  (create_hierarchical_chunks_deterministic cfgW [docW] 20 30
    ((create_hierarchical_chunks cfgW 20 [docW]).getD [])
    ((create_hierarchical_chunks cfgW 30 [docW]).getD [])
    (by decide) (by decide)).2.1

-- ---------------------------------------------------------------------------
-- Block structure: every L0 entry is immediately followed by an L1 child
-- (C10)
-- ---------------------------------------------------------------------------

/-- Every `"L0"` entry is immediately followed by an `"L1"` entry whose
`parent_chunk_id` is that L0's `chunk_id`. -/
def L0FollowedByL1 (out : List HChunk) : Prop :=
  ∀ i (hi : i < out.length), (out.get ⟨i, hi⟩).chunk_level = "L0" →
    ∃ hj : i + 1 < out.length,
      (out.get ⟨i + 1, hj⟩).chunk_level = "L1" ∧
      (out.get ⟨i + 1, hj⟩).parent_chunk_id = some (out.get ⟨i, hi⟩).chunk_id

theorem l0FollowedByL1_append (a b : List HChunk)
    (ha : L0FollowedByL1 a) (hb : L0FollowedByL1 b) :
    L0FollowedByL1 (a ++ b) := by
  intro i hi hL0
  by_cases hia : i < a.length
  · have hgi : (a ++ b).get ⟨i, hi⟩ = a.get ⟨i, hia⟩ := by
      simp [List.getElem_append_left hia]
    rw [hgi] at hL0 ⊢
    rcases ha i hia hL0 with ⟨hj, hlev, hpar⟩
    have hj2 : i + 1 < (a ++ b).length := by
      rw [List.length_append]
      omega
    refine ⟨hj2, ?_, ?_⟩
    · have : (a ++ b).get ⟨i + 1, hj2⟩ = a.get ⟨i + 1, hj⟩ := by
        simp [List.getElem_append_left hj]
      rw [this]
      exact hlev
    · have : (a ++ b).get ⟨i + 1, hj2⟩ = a.get ⟨i + 1, hj⟩ := by
        simp [List.getElem_append_left hj]
      rw [this]
      exact hpar
  · push_neg at hia
    have hib : i - a.length < b.length := by
      rw [List.length_append] at hi
      omega
    have hgi : (a ++ b).get ⟨i, hi⟩ = b.get ⟨i - a.length, hib⟩ := by
      simp [List.getElem_append_right hia]
    rw [hgi] at hL0 ⊢
    rcases hb (i - a.length) hib hL0 with ⟨hj, hlev, hpar⟩
    have hj2 : i + 1 < (a ++ b).length := by
      rw [List.length_append]
      omega
    have hgj : (a ++ b).get ⟨i + 1, hj2⟩ = b.get ⟨i - a.length + 1, hj⟩ := by
      have h1 : a.length ≤ i + 1 := by omega
      have h2 : i + 1 - a.length = i - a.length + 1 := by omega
      simp [List.getElem_append_right h1, h2]
    exact ⟨hj2, by rw [hgj]; exact hlev, by rw [hgj]; exact hpar⟩

theorem l1Entries_level_parent (doc_id l0_id : String) (l0_start : Nat) :
    ∀ (l1s : List RelChunk) (idx : Nat), ∀ x ∈ l1Entries doc_id l0_id l0_start l1s idx,
      x.chunk_level = "L1" ∧ x.parent_chunk_id = some l0_id := by
  intro l1s
  induction l1s with
  | nil => intro idx x hx; exact absurd hx (by simp [l1Entries])
  | cons l1 rest ih =>
    intro idx x hx
    unfold l1Entries at hx
    rcases List.mem_cons.mp hx with rfl | hx'
    · exact ⟨rfl, rfl⟩
    · exact ih (idx + 1) x hx'

theorem l0Block_followed (cfg : ChunkCfg) (wfuel : Nat) (doc_id : String)
    (l0_idx : Nat) (l0 : RelChunk) (out : List HChunk)
    (h : l0Block cfg wfuel doc_id l0_idx l0 = some out) :
    L0FollowedByL1 out := by
  unfold l0Block at h
  rcases Option.map_eq_some'.mp h with ⟨l1s, hl1s, hout⟩
  have hne : l1s ≠ [] := by
    unfold l1ListFor at hl1s
    cases hc : create_chunks_from_text cfg.l1_size cfg.l1_overlap cfg.separators
        wfuel l0.text with
    | none => rw [hc] at hl1s; exact absurd hl1s (by simp)
    | some l1s' =>
      rw [hc] at hl1s
      cases l1s' with
      | nil =>
        simp only [Option.some_inj] at hl1s
        rw [← hl1s]
        simp
      | cons c cs =>
        simp only [Option.some_inj] at hl1s
        rw [← hl1s]
        simp
  obtain ⟨c, cs, rfl⟩ := List.exists_cons_of_ne_nil hne
  subst hout
  intro i hi hL0
  cases i with
    | zero =>
      have hj : 0 + 1 < (HChunk.mk l0.text doc_id "L0" l0_idx l0.char_start
          l0.char_end (make_chunk_id doc_id "L0" l0.char_start l0.char_end) none ::
          l1Entries doc_id (make_chunk_id doc_id "L0" l0.char_start l0.char_end)
            l0.char_start (c :: cs) 0).length := by
        simp [l1Entries]
      refine ⟨hj, ?_⟩
      have hmem : (l1Entries doc_id
          (make_chunk_id doc_id "L0" l0.char_start l0.char_end)
          l0.char_start (c :: cs) 0).get ⟨0, by simp [l1Entries]⟩ ∈
          l1Entries doc_id (make_chunk_id doc_id "L0" l0.char_start l0.char_end)
            l0.char_start (c :: cs) 0 := List.get_mem _ _ _
      have hlp := l1Entries_level_parent doc_id
        (make_chunk_id doc_id "L0" l0.char_start l0.char_end) l0.char_start
        (c :: cs) 0 _ hmem
      simpa using hlp
    | succ i' =>
      exfalso
      have hi' : i' < (l1Entries doc_id
          (make_chunk_id doc_id "L0" l0.char_start l0.char_end)
          l0.char_start (c :: cs) 0).length := by
        simp at hi
        simpa using hi
      have hmem : (l1Entries doc_id
          (make_chunk_id doc_id "L0" l0.char_start l0.char_end)
          l0.char_start (c :: cs) 0).get ⟨i', hi'⟩ ∈
          l1Entries doc_id (make_chunk_id doc_id "L0" l0.char_start l0.char_end)
            l0.char_start (c :: cs) 0 := List.get_mem _ _ _
      have hlp := l1Entries_level_parent doc_id
        (make_chunk_id doc_id "L0" l0.char_start l0.char_end) l0.char_start
        (c :: cs) 0 _ hmem
      have : (l1Entries doc_id
          (make_chunk_id doc_id "L0" l0.char_start l0.char_end)
          l0.char_start (c :: cs) 0).get ⟨i', hi'⟩ =
          (HChunk.mk l0.text doc_id "L0" l0_idx l0.char_start l0.char_end
            (make_chunk_id doc_id "L0" l0.char_start l0.char_end) none ::
            l1Entries doc_id (make_chunk_id doc_id "L0" l0.char_start l0.char_end)
              l0.char_start (c :: cs) 0).get ⟨i' + 1, by simpa using hi⟩ := by
        simp
      rw [this] at hlp
      rw [hlp.1] at hL0
      exact absurd hL0 (by decide)

theorem l0Blocks_followed (cfg : ChunkCfg) (wfuel : Nat) (doc_id : String) :
    ∀ (l0s : List RelChunk) (i : Nat) (out : List HChunk),
      l0Blocks cfg wfuel doc_id l0s i = some out → L0FollowedByL1 out := by
  intro l0s
  induction l0s with
  | nil =>
    intro i out h
    simp only [l0Blocks, Option.some_inj] at h
    rw [← h]
    intro j hj
    exact absurd hj (by simp)
  | cons l0 rest ih =>
    intro i out h
    unfold l0Blocks at h
    cases hb : l0Block cfg wfuel doc_id i l0 with
    | none => rw [hb] at h; exact absurd h (by simp)
    | some b =>
      rw [hb] at h
      cases hbs : l0Blocks cfg wfuel doc_id rest (i + 1) with
      | none => rw [hbs] at h; exact absurd h (by simp)
      | some bs =>
        rw [hbs] at h
        simp only [Option.some_inj] at h
        rw [← h]
        exact l0FollowedByL1_append b bs
          (l0Block_followed cfg wfuel doc_id i l0 b hb) (ih (i + 1) bs hbs)

theorem docChunks_followed (cfg : ChunkCfg) (wfuel : Nat) (doc : Document)
    (out : List HChunk) (h : docChunks cfg wfuel doc = some out) :
    L0FollowedByL1 out := by
  unfold docChunks at h
  dsimp only at h
  cases hc : create_chunks_from_text cfg.l0_size cfg.l0_overlap cfg.separators
      wfuel (preprocess_text_for_chunking doc.text) with
  | none => rw [hc] at h; exact absurd h (by simp)
  | some l0s =>
    rw [hc] at h
    exact l0Blocks_followed cfg wfuel doc.id l0s 0 out h

/-- Claim C10: in every successful run of `create_hierarchical_chunks`, each
emitted `"L0"` entry is immediately followed by an `"L1"` entry whose
`parent_chunk_id` is that L0's `chunk_id` (so no L0 is ever childless); and
when `create_chunks_from_text` yields no sub-chunks for an L0's text, the L1
list used is exactly one synthetic chunk covering the L0 text from offset 0
to its full length. -/
theorem create_hierarchical_chunks_no_childless_l0 (cfg : ChunkCfg)
    (wfuel : Nat) (docs : List Document) (out : List HChunk)
    (h : create_hierarchical_chunks cfg wfuel docs = some out) :
    L0FollowedByL1 out ∧
    (∀ t : Text,
      create_chunks_from_text cfg.l1_size cfg.l1_overlap cfg.separators wfuel t =
          some [] →
        l1ListFor cfg wfuel t = some [RelChunk.mk t 0 0 t.length]) := by
  constructor
  · induction docs generalizing out with
    | nil =>
      simp only [create_hierarchical_chunks, Option.some_inj] at h
      rw [← h]
      intro j hj
      exact absurd hj (by simp)
    | cons doc rest ih =>
      rw [create_hierarchical_chunks] at h
      cases hd : docChunks cfg wfuel doc with
      | none => rw [hd] at h; exact absurd h (by simp)
      | some a =>
        rw [hd] at h
        cases hr : create_hierarchical_chunks cfg wfuel rest with
        | none => rw [hr] at h; exact absurd h (by simp)
        | some b =>
          rw [hr] at h
          simp only [Option.some_inj] at h
          rw [← h]
          exact l0FollowedByL1_append a b
            (docChunks_followed cfg wfuel doc a hd) (ih b hr)
  · intro t ht
    unfold l1ListFor
    rw [ht]

/-- Witness for `create_hierarchical_chunks_no_childless_l0` on the concrete
document and fuel 20. -/
theorem create_hierarchical_chunks_no_childless_l0_witness :
    L0FollowedByL1 ((create_hierarchical_chunks cfgW 20 [docW]).getD []) :=
  (create_hierarchical_chunks_no_childless_l0 cfgW 20 [docW]
    ((create_hierarchical_chunks cfgW 20 [docW]).getD []) (by decide)).1

-- ---------------------------------------------------------------------------
-- Offset-recovery invariant (towards C2): the chunk texts produced by the
-- splitter occur in the original text, in order, with at most `ov` of
-- backwards slack between consecutive occurrences, and within position `m`.
-- ---------------------------------------------------------------------------

/-- `OrderedIn text ov m ts p`: the stripped texts of `ts` occur in `text`
left to right, the first at a position `≥ p`, each ending at or before `m`,
and each occurrence starting no earlier than `ov` characters before the end
of the previous one.  This is exactly the invariant the offset-recovery loop
needs for `text.find(tc, current_pos)` to succeed at every step. -/
def OrderedIn (text : Text) (ov m : Nat) : List Text → Nat → Prop
  | [], _ => True
  | t :: ts, p => strip t ≠ [] ∧ ∃ q, p ≤ q ∧ strip t <+: text.drop q ∧
      q + (strip t).length ≤ m ∧ OrderedIn text ov m ts (q + (strip t).length - ov)

theorem orderedIn_mono_lower (text : Text) (ov m : Nat) (l : List Text)
    (b b' : Nat) (hbb : b' ≤ b) (h : OrderedIn text ov m l b) :
    OrderedIn text ov m l b' := by
  cases l with
  | nil => trivial
  | cons t ts =>
    rcases h with ⟨hne, q, hq, hpre, hqm, htail⟩
    exact ⟨hne, q, le_trans hbb hq, hpre, hqm, htail⟩

theorem orderedIn_mono_ceiling (text : Text) (ov : Nat) (m m' : Nat)
    (hmm : m ≤ m') : ∀ (l : List Text) (b : Nat),
      OrderedIn text ov m l b → OrderedIn text ov m' l b := by
  intro l
  induction l with
  | nil => intro b _; trivial
  | cons t ts ih =>
    intro b h
    rcases h with ⟨hne, q, hq, hpre, hqm, htail⟩
    exact ⟨hne, q, hq, hpre, le_trans hqm hmm, ih _ htail⟩

theorem orderedIn_shift (sub text : Text) (ov m a : Nat)
    (hsub : sub <+: text.drop a) : ∀ (l : List Text) (b : Nat),
      OrderedIn sub ov m l b → OrderedIn text ov (a + m) l (a + b) := by
  intro l
  induction l with
  | nil => intro b _; trivial
  | cons t ts ih =>
    intro b h
    rcases h with ⟨hne, q, hq, hpre, hqm, htail⟩
    have hlen : 1 ≤ (strip t).length := by
      cases hst : strip t with
      | nil => exact absurd hst hne
      | cons c cs => simp
    have hql : q < sub.length := by
      rcases hpre with ⟨r', hr'⟩
      have hc := congrArg List.length hr'
      simp only [List.length_append, List.length_drop] at hc
      omega
    refine ⟨hne, a + q, by omega, ?_, by omega, ?_⟩
    · rcases hsub with ⟨r, hr⟩
      rcases hpre with ⟨r', hr'⟩
      refine ⟨r' ++ r, ?_⟩
      have hdrop : text.drop (a + q) = sub.drop q ++ r := by
        rw [← List.drop_drop, ← hr]
        exact List.drop_append_of_le_length (by omega)
      rw [hdrop, ← hr', List.append_assoc]
    · exact orderedIn_mono_lower text ov (a + m) ts _ _ (by omega) (ih _ htail)

theorem orderedIn_append (text : Text) (ov : Nat) :
    ∀ (l1 l2 : List Text) (m1 m2 b b2 : Nat),
      OrderedIn text ov m1 l1 b → OrderedIn text ov m2 l2 b2 →
      b ≤ b2 → m1 - ov ≤ b2 → m1 ≤ m2 →
      OrderedIn text ov m2 (l1 ++ l2) b := by
  intro l1
  induction l1 with
  | nil =>
    intro l2 m1 m2 b b2 _ h2 hb _ _
    exact orderedIn_mono_lower text ov m2 l2 b2 b hb h2
  | cons t ts ih =>
    intro l2 m1 m2 b b2 h1 h2 hb hm1 hm12
    rcases h1 with ⟨hne, q, hq, hpre, hqm, htail⟩
    refine ⟨hne, q, hq, hpre, le_trans hqm hm12, ?_⟩
    exact ih l2 m1 m2 _ b2 htail h2 (by omega) hm1 hm12

theorem stripL_eq_drop (s : Text) : stripL s = s.drop (wsCount s) := by
  have h := List.takeWhile_append_dropWhile isSpaceChar s
  calc stripL s
      = (s.takeWhile isSpaceChar ++ s.dropWhile isSpaceChar).drop
          (s.takeWhile isSpaceChar).length := by rw [List.drop_left]; rfl
    _ = s.drop (wsCount s) := by rw [h]; rfl

theorem stripR_self_pre (s : Text) : stripR s <+: s := by
  unfold stripR
  rw [← List.reverse_suffix, List.reverse_reverse]
  exact List.dropWhile_suffix _

theorem strip_occurrence (s : Text) :
    strip s <+: s.drop (wsCount s) ∧ wsCount s + (strip s).length ≤ s.length := by
  have h1 : strip s <+: s.drop (wsCount s) := by
    unfold strip
    rw [← stripL_eq_drop]
    exact stripR_self_pre _
  refine ⟨h1, ?_⟩
  have hws : wsCount s ≤ s.length := by
    have h := congrArg List.length (List.takeWhile_append_dropWhile isSpaceChar s)
    simp only [List.length_append] at h
    unfold wsCount
    omega
  rcases h1 with ⟨t, ht⟩
  have hc := congrArg List.length ht
  simp only [List.length_append, List.length_drop] at hc
  omega

/-- A single stripped-nonempty text is ordered within itself. -/
theorem orderedIn_single (s : Text) (ov b : Nat) (hne : strip s ≠ [])
    (hb : b ≤ wsCount s) :
    OrderedIn s ov s.length [s] b := by
  rcases strip_occurrence s with ⟨hpre, hlen⟩
  exact ⟨hne, wsCount s, hb, hpre, hlen, trivial⟩

theorem dropWhile_idem (p : Char → Bool) : ∀ s : Text,
    (s.dropWhile p).dropWhile p = s.dropWhile p := by
  intro s
  induction s with
  | nil => rfl
  | cons a s' ih =>
    by_cases hpa : p a
    · simp [List.dropWhile_cons, hpa, ih]
    · simp [List.dropWhile_cons, hpa]

theorem dropWhile_eq_self_of_pre (p : Char → Bool) (x z : Text)
    (hx : x <+: z) (hz : z.dropWhile p = z) : x.dropWhile p = x := by
  cases x with
  | nil => rfl
  | cons c cs =>
    rcases hx with ⟨t, ht⟩
    rw [← ht, List.cons_append] at hz
    rw [List.dropWhile_cons] at hz ⊢
    by_cases hpc : p c
    · rw [if_pos hpc] at hz
      exfalso
      have hlen := congrArg List.length hz
      have hsfx := List.dropWhile_suffix (l := cs ++ t) p
      rcases hsfx with ⟨u, hu⟩
      have hlen2 := congrArg List.length hu
      simp only [List.length_append, List.length_cons] at hlen hlen2
      omega
    · rw [if_neg hpc]

theorem stripR_idem (y : Text) : stripR (stripR y) = stripR y := by
  unfold stripR
  rw [List.reverse_reverse, dropWhile_idem]

/-- `strip` is idempotent: the splitter emits already-stripped chunks, and
the offset-recovery loop strips them again before searching. -/
theorem strip_strip (s : Text) : strip (strip s) = strip s := by
  show stripR (stripL (strip s)) = strip s
  have h1 : stripL (strip s) = strip s := by
    show (strip s).dropWhile isSpaceChar = strip s
    exact dropWhile_eq_self_of_pre isSpaceChar (strip s) (stripL s)
      (stripR_self_pre (stripL s)) (dropWhile_idem isSpaceChar s)
  rw [h1]
  show stripR (stripR (stripL s)) = strip s
  rw [stripR_idem]
  rfl

-- ---------------------------------------------------------------------------
-- Correctness of the `str.find` model
-- ---------------------------------------------------------------------------

theorem findFrom_some_spec (pat s : Text) (b i : Nat)
    (h : findFrom pat s b = some i) :
    b ≤ i ∧ pat <+: s.drop i := by
  unfold findFrom at h
  have hp := List.find?_some h
  simp only [Bool.and_eq_true, decide_eq_true_eq] at hp
  refine ⟨hp.1, ?_⟩
  have := hp.2
  rwa [occursAtB, List.isPrefixOf_iff_prefix] at this

theorem findFrom_minimal (pat s : Text) (b i : Nat)
    (h : findFrom pat s b = some i) :
    ∀ j, b ≤ j → pat <+: s.drop j → i ≤ j := by
  unfold findFrom at h
  rw [List.find?_eq_some] at h
  rcases h with ⟨hpi, as, bs, hsplit, hnot⟩
  intro j hbj hpre
  by_contra hcon
  push_neg at hcon
  have haslen : as.length ≤ s.length := by
    have := congrArg List.length hsplit
    simp only [List.length_range, List.length_append, List.length_cons] at this
    omega
  have h1 : (as ++ i :: bs)[as.length]? = some i := by
    rw [List.getElem?_append_right (le_refl _)]
    simp
  have h2 : (List.range (s.length + 1))[as.length]? = some as.length :=
    List.getElem?_range (by omega)
  rw [hsplit] at h2
  rw [h1] at h2
  have hi_as : i = as.length := by
    simp only [Option.some_inj] at h2
    omega
  have htake : as = List.range (min as.length (s.length + 1)) := by
    have h3 := List.take_left as (i :: bs)
    rw [← hsplit, List.take_range] at h3
    exact h3.symm
  have hjmem : j ∈ as := by
    rw [htake, List.mem_range]
    omega
  have hja := hnot j hjmem
  have hx : (decide (b ≤ j) && occursAtB pat s j) = false := by
    cases hxx : (decide (b ≤ j) && occursAtB pat s j) with
    | false => rfl
    | true => rw [hxx] at hja; simp at hja
  have htrue : (decide (b ≤ j) && occursAtB pat s j) = true := by
    rw [Bool.and_eq_true]
    constructor
    · simpa using hbj
    · rw [occursAtB, List.isPrefixOf_iff_prefix]
      exact hpre
  rw [htrue] at hx
  simp at hx

theorem findFrom_exists (pat s : Text) (b q : Nat) (hq : b ≤ q)
    (hocc : pat <+: s.drop q) (hne : pat ≠ []) :
    ∃ i, findFrom pat s b = some i ∧ b ≤ i ∧ i ≤ q ∧ pat <+: s.drop i := by
  have hlp : 1 ≤ pat.length := by
    cases pat with
    | nil => exact absurd rfl hne
    | cons _ _ => simp
  have hqlen : q ≤ s.length := by
    rcases hocc with ⟨t, ht⟩
    have := congrArg List.length ht
    simp only [List.length_append, List.length_drop] at this
    omega
  have hsome : (findFrom pat s b).isSome := by
    unfold findFrom
    rw [List.find?_isSome]
    refine ⟨q, List.mem_range.mpr (by omega), ?_⟩
    rw [Bool.and_eq_true]
    constructor
    · simpa using hq
    · rw [occursAtB, List.isPrefixOf_iff_prefix]
      exact hocc
  rcases Option.isSome_iff_exists.mp hsome with ⟨i, hi⟩
  rcases findFrom_some_spec pat s b i hi with ⟨h1, h2⟩
  exact ⟨i, hi, h1, findFrom_minimal pat s b i hi q hq hocc, h2⟩

-- ---------------------------------------------------------------------------
-- Rejoining split parts
-- ---------------------------------------------------------------------------

theorem splitSepF_ne_nil (sep : Text) (f : Nat) (t : Text) :
    splitSepF sep f t ≠ [] := by
  cases f with
  | zero => simp [splitSepF]
  | succ f =>
    unfold splitSepF
    cases findFrom sep t 0 <;> simp

theorem joinWith_splitSepF (sep : Text) (hsep : sep ≠ []) :
    ∀ (f : Nat) (t : Text), t.length < f →
      joinWith sep (splitSepF sep f t) = t := by
  intro f
  induction f with
  | zero => intro t h; omega
  | succ f ih =>
    intro t ht
    unfold splitSepF
    cases hf : findFrom sep t 0 with
    | none => rfl
    | some i =>
      show joinWith sep (t.take i :: splitSepF sep f (t.drop (i + sep.length))) = t
      rcases findFrom_some_spec sep t 0 i hf with ⟨_, hpre⟩
      have hslen : 1 ≤ sep.length := by
        cases sep with
        | nil => exact absurd rfl hsep
        | cons _ _ => simp
      rcases hpre with ⟨r, hr⟩
      have hilen : i + sep.length ≤ t.length := by
        have := congrArg List.length hr
        simp only [List.length_append, List.length_drop] at this
        omega
      have hrec : (t.drop (i + sep.length)).length < f := by
        rw [List.length_drop]
        omega
      have hne := splitSepF_ne_nil sep f (t.drop (i + sep.length))
      obtain ⟨x, xs, hxs⟩ := List.exists_cons_of_ne_nil hne
      rw [hxs]
      show t.take i ++ sep ++ joinWith sep (x :: xs) = t
      rw [← hxs, ih _ hrec]
      have hdrop2 : t.drop (i + sep.length) = r := by
        have hdd : (t.drop i).drop sep.length = t.drop (i + sep.length) :=
          List.drop_drop _ _ _
        rw [← hdd, ← hr, List.drop_left]
      rw [hdrop2]
      have hta : t.take i ++ sep ++ r = t.take i ++ (sep ++ r) :=
        List.append_assoc _ _ _
      rw [hta, hr]
      exact List.take_append_drop i t

theorem joinWith_splitSep (sep : Text) (hsep : sep ≠ []) (t : Text) :
    joinWith sep (splitSep sep t) = t :=
  joinWith_splitSepF sep hsep (t.length + 1) t (by omega)

theorem findSep_found_ne_nil (text : Text) :
    ∀ (seps : List Text) (sep : Text),
      findSep text seps = SepScan.found sep → sep ≠ [] := by
  intro seps
  induction seps with
  | nil => intro sep h; exact absurd h (by simp [findSep])
  | cons s0 rest ih =>
    intro sep h
    unfold findSep at h
    by_cases h0 : s0 = []
    · rw [if_pos h0] at h
      exact absurd h (by simp)
    · rw [if_neg h0] at h
      by_cases h1 : ((findFrom s0 text 0).isSome &&
          decide (2 ≤ (splitSep s0 text).length)) = true
      · rw [if_pos h1] at h
        injection h with h2
        rw [← h2]
        exact h0
      · rw [if_neg h1] at h
        exact ih sep h

-- ---------------------------------------------------------------------------
-- The splitter's outputs satisfy the ordered-occurrence invariant
-- ---------------------------------------------------------------------------

theorem wsCount_le (s : Text) : wsCount s ≤ s.length := by
  have h := congrArg List.length (List.takeWhile_append_dropWhile isSpaceChar s)
  simp only [List.length_append] at h
  unfold wsCount
  omega

/-- Consing a stripped window `text[s:e]` onto a tail that is ordered from
`e` onwards. -/
theorem orderedIn_cons_window (text : Text) (ov s e : Nat)
    (hse : s ≤ e) (hen : e ≤ text.length)
    (hne : strip ((text.drop s).take (e - s)) ≠ [])
    (rest : List Text) (hrest : OrderedIn text ov text.length rest e) :
    OrderedIn text ov text.length (strip ((text.drop s).take (e - s)) :: rest) s := by
  have hslice : (text.drop s).take (e - s) ++ (text.drop s).drop (e - s) =
      text.drop s := List.take_append_drop _ _
  rcases strip_occurrence ((text.drop s).take (e - s)) with ⟨hpre, hlen⟩
  have hslen : ((text.drop s).take (e - s)).length ≤ e - s := by
    rw [List.length_take]
    omega
  refine ⟨by rw [strip_strip]; exact hne, s + wsCount ((text.drop s).take (e - s)),
    by omega, ?_, ?_, ?_⟩
  · rw [strip_strip]
    rcases hpre with ⟨u, hu⟩
    refine ⟨u ++ (text.drop s).drop (e - s), ?_⟩
    have hd : text.drop (s + wsCount ((text.drop s).take (e - s))) =
        ((text.drop s).take (e - s)).drop (wsCount ((text.drop s).take (e - s))) ++
          (text.drop s).drop (e - s) := by
      calc text.drop (s + wsCount ((text.drop s).take (e - s)))
          = (text.drop s).drop (wsCount ((text.drop s).take (e - s))) :=
            (List.drop_drop _ _ _).symm
        _ = ((text.drop s).take (e - s) ++ (text.drop s).drop (e - s)).drop
              (wsCount ((text.drop s).take (e - s))) := by rw [hslice]
        _ = ((text.drop s).take (e - s)).drop (wsCount ((text.drop s).take (e - s))) ++
              (text.drop s).drop (e - s) :=
            List.drop_append_of_le_length (wsCount_le _)
    rw [hd, ← hu, List.append_assoc]
  · rw [strip_strip]
    omega
  · rw [strip_strip]
    exact orderedIn_mono_lower text ov text.length rest _ _ (by omega) hrest

theorem windowLoop_orderedIn (text : Text) (cs ov : Nat) :
    ∀ (f s : Nat) (out : List Text),
      windowLoop text cs ov f s = some out →
      OrderedIn text ov text.length out s := by
  intro f
  induction f with
  | zero => intro s out h; exact absurd h (by simp [windowLoop])
  | succ f ih =>
    intro s out h
    by_cases hs : s < text.length
    · by_cases hov : 0 < ov
      · rw [windowLoop_overlap_pos_none text cs ov hov (f + 1) s hs] at h
        exact absurd h (by simp)
      · have hov0 : ov = 0 := by omega
        subst hov0
        unfold windowLoop at h
        rw [if_pos hs] at h
        simp only [Nat.lt_irrefl, if_false] at h
        by_cases hstop : text.length ≤ min (s + cs) text.length
        · rw [if_pos hstop] at h
          simp only [Option.some_inj] at h
          rw [← h]
          by_cases hch : strip ((text.drop s).take (min (s + cs) text.length - s)) = []
          · simp only [hch, if_pos]
            trivial
          · rw [if_neg hch]
            exact orderedIn_cons_window text 0 s (min (s + cs) text.length)
              (by omega) (by omega) hch [] trivial
        · rw [if_neg hstop] at h
          rcases Option.map_eq_some'.mp h with ⟨r, hr, hout⟩
          have hrest := ih _ _ hr
          rw [← hout]
          by_cases hch : strip ((text.drop s).take (min (s + cs) text.length - s)) = []
          · simp only [hch, if_pos, List.nil_append]
            exact orderedIn_mono_lower text 0 text.length r _ _ (by omega) hrest
          · rw [if_neg hch]
            simp only [List.cons_append, List.nil_append]
            exact orderedIn_cons_window text 0 s (min (s + cs) text.length)
              (by omega) (by omega) hch r hrest
    · unfold windowLoop at h
      rw [if_neg hs] at h
      simp only [Option.some_inj] at h
      rw [← h]
      trivial

/-- The flushed accumulator `cur.strip()` occurs inside any text that `cur`
is a prefix of, wholly within the first `cur.length` characters. -/
theorem orderedIn_flush (T cur : Text) (ov : Nat) (hpre : cur <+: T)
    (hne : strip cur ≠ []) :
    OrderedIn T ov cur.length [strip cur] 0 := by
  rcases strip_occurrence cur with ⟨hoc, hlen⟩
  refine ⟨by rw [strip_strip]; exact hne, wsCount cur, by omega, ?_, ?_, trivial⟩
  · rw [strip_strip]
    rcases hpre with ⟨r, hr⟩
    rcases hoc with ⟨u, hu⟩
    refine ⟨u ++ r, ?_⟩
    have hd : T.drop (wsCount cur) = cur.drop (wsCount cur) ++ r := by
      rw [← hr]
      exact List.drop_append_of_le_length (wsCount_le cur)
    rw [hd, ← hu, List.append_assoc]
  · rw [strip_strip]
    omega

theorem orderedIn_flushed_ite (T cur : Text) (ov : Nat) (hpre : cur <+: T) :
    OrderedIn T ov cur.length (if strip cur = [] then [] else [strip cur]) 0 := by
  by_cases hc : strip cur = []
  · rw [if_pos hc]
    trivial
  · rw [if_neg hc]
    exact orderedIn_flush T cur ov hpre hc

theorem joinWith_cons (sep part : Text) (rest : List Text) :
    joinWith sep (part :: rest) =
      (part ++ (if rest = [] then [] else sep)) ++ joinWith sep rest := by
  cases rest with
  | nil => simp [joinWith]
  | cons q r =>
    show part ++ sep ++ joinWith sep (q :: r) =
      (part ++ sep) ++ joinWith sep (q :: r)
    rfl

theorem accumParts_orderedIn (cs ov : Nat) (rec : Text → Option (List Text))
    (sep : Text)
    (hrec : ∀ t out, rec t = some out → OrderedIn t ov t.length out 0) :
    ∀ (parts : List Text) (cur : Text) (out : List Text),
      accumParts cs rec sep parts cur = some out →
      OrderedIn (cur ++ joinWith sep parts) ov
        (cur ++ joinWith sep parts).length out 0 := by
  intro parts
  induction parts with
  | nil =>
    intro cur out h
    simp only [accumParts, Option.some_inj] at h
    rw [← h]
    show OrderedIn (cur ++ joinWith sep []) ov (cur ++ joinWith sep []).length _ 0
    have hj : cur ++ joinWith sep [] = cur := by
      show cur ++ [] = cur
      exact List.append_nil cur
    rw [hj]
    have := orderedIn_flushed_ite cur cur ov ⟨[], List.append_nil cur⟩
    exact orderedIn_mono_ceiling cur ov cur.length cur.length (le_refl _) _ _ this
  | cons part rest ih =>
    intro cur out h
    rw [joinWith_cons]
    unfold accumParts at h
    by_cases hfit : cur.length + (part ++ (if rest = [] then [] else sep)).length ≤ cs
    · rw [if_pos hfit] at h
      have := ih (cur ++ (part ++ (if rest = [] then [] else sep))) out h
      rw [List.append_assoc] at this
      exact this
    · rw [if_neg hfit] at h
      have hTpre : cur <+: cur ++ ((part ++ (if rest = [] then [] else sep)) ++
          joinWith sep rest) := ⟨_, rfl⟩
      have hflush := orderedIn_flushed_ite
        (cur ++ ((part ++ (if rest = [] then [] else sep)) ++ joinWith sep rest))
        cur ov hTpre
      by_cases hbig : cs < (part ++ (if rest = [] then [] else sep)).length
      · rw [if_pos hbig] at h
        cases hsub : rec (part ++ (if rest = [] then [] else sep)) with
        | none => rw [hsub] at h; exact absurd h (by simp)
        | some sub =>
          rw [hsub] at h
          rcases Option.map_eq_some'.mp h with ⟨out2, hout2, hout⟩
          rw [← hout]
          have hsubord := hrec _ _ hsub
          have hsub_shift := orderedIn_shift
            (part ++ (if rest = [] then [] else sep))
            (cur ++ ((part ++ (if rest = [] then [] else sep)) ++ joinWith sep rest))
            ov (part ++ (if rest = [] then [] else sep)).length cur.length
            (by rw [List.drop_left]; exact ⟨_, rfl⟩) sub 0 hsubord
          have hih := ih [] out2 hout2
          simp only [List.nil_append] at hih
          have hout2_shift := orderedIn_shift (joinWith sep rest)
            (cur ++ ((part ++ (if rest = [] then [] else sep)) ++ joinWith sep rest))
            ov (joinWith sep rest).length
            (cur.length + (part ++ (if rest = [] then [] else sep)).length)
            ?_ out2 0 hih
          · have hinner := orderedIn_append
              (cur ++ ((part ++ (if rest = [] then [] else sep)) ++ joinWith sep rest))
              ov sub out2
              (cur.length + (part ++ (if rest = [] then [] else sep)).length)
              (cur.length + (part ++ (if rest = [] then [] else sep)).length +
                (joinWith sep rest).length)
              (cur.length + 0)
              (cur.length + (part ++ (if rest = [] then [] else sep)).length + 0)
              hsub_shift (by simpa using hout2_shift) (by omega) (by omega) (by omega)
            have houter := orderedIn_append
              (cur ++ ((part ++ (if rest = [] then [] else sep)) ++ joinWith sep rest))
              ov (if strip cur = [] then [] else [strip cur]) (sub ++ out2)
              cur.length
              (cur.length + (part ++ (if rest = [] then [] else sep)).length +
                (joinWith sep rest).length)
              0 (cur.length + 0)
              hflush (by simpa using hinner) (by omega) (by omega) (by omega)
            have hlen : (cur ++ ((part ++ (if rest = [] then [] else sep)) ++
                joinWith sep rest)).length =
                cur.length + (part ++ (if rest = [] then [] else sep)).length +
                  (joinWith sep rest).length := by
              simp [List.length_append]
              omega
            rw [hlen]
            exact houter
          · have hdrop : (cur ++ ((part ++ (if rest = [] then [] else sep)) ++
                joinWith sep rest)).drop
                (cur.length + (part ++ (if rest = [] then [] else sep)).length) =
                joinWith sep rest := by
              have hassoc : cur ++ ((part ++ (if rest = [] then [] else sep)) ++
                  joinWith sep rest) =
                  (cur ++ (part ++ (if rest = [] then [] else sep))) ++
                    joinWith sep rest := by
                simp [List.append_assoc]
              rw [hassoc]
              have hlen2 : cur.length + (part ++ (if rest = [] then [] else sep)).length =
                  (cur ++ (part ++ (if rest = [] then [] else sep))).length := by
                simp [List.length_append]
              rw [hlen2, List.drop_left]
            rw [hdrop]
      · rw [if_neg hbig] at h
        rcases Option.map_eq_some'.mp h with ⟨out2, hout2, hout⟩
        rw [← hout]
        have hih := ih (part ++ (if rest = [] then [] else sep)) out2 hout2
        have hout2_shift := orderedIn_shift
          ((part ++ (if rest = [] then [] else sep)) ++ joinWith sep rest)
          (cur ++ ((part ++ (if rest = [] then [] else sep)) ++ joinWith sep rest))
          ov ((part ++ (if rest = [] then [] else sep)) ++ joinWith sep rest).length
          cur.length (by rw [List.drop_left]) out2 0 hih
        have houter := orderedIn_append
          (cur ++ ((part ++ (if rest = [] then [] else sep)) ++ joinWith sep rest))
          ov (if strip cur = [] then [] else [strip cur]) out2
          cur.length
          (cur.length + ((part ++ (if rest = [] then [] else sep)) ++
            joinWith sep rest).length)
          0 (cur.length + 0)
          hflush (by simpa using hout2_shift) (by omega) (by omega) (by omega)
        have hlen : (cur ++ ((part ++ (if rest = [] then [] else sep)) ++
            joinWith sep rest)).length =
            cur.length + ((part ++ (if rest = [] then [] else sep)) ++
              joinWith sep rest).length := by
          simp [List.length_append]
        rw [hlen]
        exact houter

theorem split_text_simple_orderedIn (cs ov wfuel : Nat) :
    ∀ (seps : List Text) (text : Text) (out : List Text),
      split_text_simple cs ov wfuel seps text = some out →
      OrderedIn text ov text.length out 0 := by
  intro seps
  induction seps with
  | nil =>
    intro text out h
    unfold split_text_simple at h
    by_cases hsmall : text.length ≤ cs
    · rw [if_pos hsmall] at h
      simp only [Option.some_inj] at h
      rw [← h]
      by_cases hst : strip text = []
      · rw [if_pos hst]
        trivial
      · rw [if_neg hst]
        rcases strip_occurrence text with ⟨hpre, hlen⟩
        exact ⟨hst, wsCount text, by omega, hpre, hlen, trivial⟩
    · rw [if_neg hsmall] at h
      simp only [findSep] at h
      exact windowLoop_orderedIn text cs ov wfuel 0 out h
  | cons sep rest ih =>
    intro text out h
    unfold split_text_simple at h
    by_cases hsmall : text.length ≤ cs
    · rw [if_pos hsmall] at h
      simp only [Option.some_inj] at h
      rw [← h]
      by_cases hst : strip text = []
      · rw [if_pos hst]
        trivial
      · rw [if_neg hst]
        rcases strip_occurrence text with ⟨hpre, hlen⟩
        exact ⟨hst, wsCount text, by omega, hpre, hlen, trivial⟩
    · rw [if_neg hsmall] at h
      cases hscan : findSep text (sep :: rest) with
      | err => rw [hscan] at h; exact absurd h (by simp)
      | window =>
        rw [hscan] at h
        exact windowLoop_orderedIn text cs ov wfuel 0 out h
      | found s0 =>
        rw [hscan] at h
        have hs0 := findSep_found_ne_nil text (sep :: rest) s0 hscan
        have hmain := accumParts_orderedIn cs ov
          (split_text_simple cs ov wfuel rest) s0
          (fun t o ht => ih t o ht) (splitSep s0 text) [] out h
        simp only [List.nil_append] at hmain
        rw [joinWith_splitSep s0 hs0 text] at hmain
        exact hmain

/-- Under the ordered-occurrence invariant, the offset-recovery loop always
takes the found branch, and every recovered chunk has a strictly positive
in-bounds span whose width is exactly the chunk text's length. -/
theorem recoverOffsets_bounds (text : Text) (ov : Nat) :
    ∀ (texts : List Text) (m i p : Nat),
      OrderedIn text ov m texts p →
      ∀ c ∈ recoverOffsets text ov texts i p,
        c.char_start < c.char_end ∧ c.char_end ≤ text.length ∧
          c.char_end = c.char_start + c.text.length ∧ c.text ≠ [] := by
  intro texts
  induction texts with
  | nil => intro m i p _ c hc; exact absurd hc (by simp [recoverOffsets])
  | cons t ts ih =>
    intro m i p hord c hc
    rcases hord with ⟨hne, q, hq, hpre, hqm, htail⟩
    unfold recoverOffsets at hc
    rw [if_neg hne] at hc
    rcases findFrom_exists (strip t) text p q hq hpre hne with
      ⟨r, hr, hpr, hrq, hrocc⟩
    rw [hr] at hc
    have hlen1 : 1 ≤ (strip t).length := by
      cases hstt : strip t with
      | nil => exact absurd hstt hne
      | cons _ _ => simp
    have hrlen : r + (strip t).length ≤ text.length := by
      rcases hrocc with ⟨u, hu⟩
      have := congrArg List.length hu
      simp only [List.length_append, List.length_drop] at this
      omega
    rcases List.mem_cons.mp hc with rfl | hc'
    · exact ⟨by simp; omega, by simpa using hrlen, rfl, hne⟩
    · have htail2 := orderedIn_mono_lower text ov m ts
        (q + (strip t).length - ov) (r + (strip t).length - ov) (by omega) htail
      exact ih m (i + 1) (r + (strip t).length - ov) htail2 c hc'

/-- Bounds for `create_chunks_from_text` whenever it returns: every chunk's
character span is non-empty, lies inside the text, and its width equals the
chunk text's length. -/
theorem create_chunks_from_text_bounds (cs ov : Nat) (seps : List Text)
    (wfuel : Nat) (text : Text) (out : List RelChunk)
    (h : create_chunks_from_text cs ov seps wfuel text = some out) :
    ∀ c ∈ out, c.char_start < c.char_end ∧ c.char_end ≤ text.length ∧
      c.char_end = c.char_start + c.text.length ∧ c.text ≠ [] := by
  unfold create_chunks_from_text at h
  by_cases hempty : strip text = []
  · rw [if_pos hempty] at h
    simp only [Option.some_inj] at h
    intro c hc
    rw [← h] at hc
    exact absurd hc (by simp)
  · rw [if_neg hempty] at h
    rcases Option.map_eq_some'.mp h with ⟨texts, htexts, hout⟩
    have hord := split_text_simple_orderedIn cs ov wfuel seps text texts htexts
    intro c hc
    rw [← hout] at hc
    exact recoverOffsets_bounds text ov texts text.length 0 0 hord c hc

theorem l1ListFor_bounds (cfg : ChunkCfg) (wfuel : Nat) (t : Text)
    (l1s : List RelChunk) (h : l1ListFor cfg wfuel t = some l1s) :
    ∀ rel ∈ l1s, rel.char_end ≤ t.length := by
  unfold l1ListFor at h
  cases hc : create_chunks_from_text cfg.l1_size cfg.l1_overlap cfg.separators
      wfuel t with
  | none => rw [hc] at h; exact absurd h (by simp)
  | some l1s' =>
    rw [hc] at h
    cases l1s' with
    | nil =>
      simp only [Option.some_inj] at h
      intro rel hrel
      rw [← h] at hrel
      rcases List.mem_singleton.mp hrel with rfl
      simp
    | cons c0 cs0 =>
      simp only [Option.some_inj] at h
      intro rel hrel
      rw [← h] at hrel
      exact (create_chunks_from_text_bounds cfg.l1_size cfg.l1_overlap
        cfg.separators wfuel t _ hc rel hrel).2.1

theorem l1Entries_mem (doc_id l0_id : String) (l0_start : Nat) :
    ∀ (l1s : List RelChunk) (idx : Nat),
      ∀ x ∈ l1Entries doc_id l0_id l0_start l1s idx,
        ∃ rel ∈ l1s, x.char_start = l0_start + rel.char_start ∧
          x.char_end = l0_start + rel.char_end := by
  intro l1s
  induction l1s with
  | nil => intro idx x hx; exact absurd hx (by simp [l1Entries])
  | cons l1 rest ih =>
    intro idx x hx
    unfold l1Entries at hx
    rcases List.mem_cons.mp hx with rfl | hx'
    · exact ⟨l1, List.mem_cons_self _ _, rfl, rfl⟩
    · rcases ih (idx + 1) x hx' with ⟨rel, hrel, h1, h2⟩
      exact ⟨rel, List.mem_cons_of_mem _ hrel, h1, h2⟩

theorem l0Block_mem_spec (cfg : ChunkCfg) (wfuel : Nat) (doc_id : String)
    (l0_idx : Nat) (l0 : RelChunk) (out : List HChunk)
    (h : l0Block cfg wfuel doc_id l0_idx l0 = some out)
    (hrel : l0.char_end = l0.char_start + l0.text.length) :
    ∀ c ∈ out,
      (c.chunk_level = "L0" ∧ c.source_document_id = doc_id ∧
        c.char_start = l0.char_start ∧ c.char_end = l0.char_end) ∨
      (c.chunk_level = "L1" ∧ ∃ l0e ∈ out, l0e.chunk_level = "L0" ∧
        c.parent_chunk_id = some l0e.chunk_id ∧
        l0e.char_start ≤ c.char_start ∧ c.char_end ≤ l0e.char_end) := by
  unfold l0Block at h
  rcases Option.map_eq_some'.mp h with ⟨l1s, hl1s, hout⟩
  subst hout
  intro c hc
  rcases List.mem_cons.mp hc with rfl | hc'
  · exact Or.inl ⟨rfl, rfl, rfl, rfl⟩
  · right
    have hlp := l1Entries_level_parent doc_id
      (make_chunk_id doc_id "L0" l0.char_start l0.char_end) l0.char_start
      l1s 0 c hc'
    rcases l1Entries_mem doc_id
      (make_chunk_id doc_id "L0" l0.char_start l0.char_end) l0.char_start
      l1s 0 c hc' with ⟨rel, hrelmem, hs, he⟩
    have hbound := l1ListFor_bounds cfg wfuel l0.text l1s hl1s rel hrelmem
    refine ⟨hlp.1, _, List.mem_cons_self _ _, rfl, hlp.2, ?_, ?_⟩
    · dsimp only
      rw [hs]
      omega
    · dsimp only
      rw [he, hrel]
      omega

theorem l0Blocks_mem_spec (cfg : ChunkCfg) (wfuel : Nat) (doc_id : String)
    (bound : Nat) :
    ∀ (l0s : List RelChunk) (i : Nat) (out : List HChunk),
      l0Blocks cfg wfuel doc_id l0s i = some out →
      (∀ l0 ∈ l0s, l0.char_start < l0.char_end ∧ l0.char_end ≤ bound ∧
        l0.char_end = l0.char_start + l0.text.length) →
      ∀ c ∈ out,
        (c.chunk_level = "L0" ∧ c.source_document_id = doc_id ∧
          c.char_start < c.char_end ∧ c.char_end ≤ bound) ∨
        (c.chunk_level = "L1" ∧ ∃ l0e ∈ out, l0e.chunk_level = "L0" ∧
          c.parent_chunk_id = some l0e.chunk_id ∧
          l0e.char_start ≤ c.char_start ∧ c.char_end ≤ l0e.char_end) := by
  intro l0s
  induction l0s with
  | nil =>
    intro i out h _ c hc
    simp only [l0Blocks, Option.some_inj] at h
    rw [← h] at hc
    exact absurd hc (by simp)
  | cons l0 rest ih =>
    intro i out h hbounds c hc
    unfold l0Blocks at h
    cases hb : l0Block cfg wfuel doc_id i l0 with
    | none => rw [hb] at h; exact absurd h (by simp)
    | some b =>
      rw [hb] at h
      cases hbs : l0Blocks cfg wfuel doc_id rest (i + 1) with
      | none => rw [hbs] at h; exact absurd h (by simp)
      | some bs =>
        rw [hbs] at h
        simp only [Option.some_inj] at h
        subst h
        have hl0 := hbounds l0 (List.mem_cons_self _ _)
        rcases List.mem_append.mp hc with hcb | hcbs
        · rcases l0Block_mem_spec cfg wfuel doc_id i l0 b hb hl0.2.2 c hcb with
            hL0 | hL1
          · exact Or.inl ⟨hL0.1, hL0.2.1, by rw [hL0.2.2.1, hL0.2.2.2]; omega,
              by rw [hL0.2.2.2]; omega⟩
          · rcases hL1 with ⟨hlev, l0e, hl0e, hrest⟩
            exact Or.inr ⟨hlev, l0e, List.mem_append_left _ hl0e, hrest⟩
        · rcases ih (i + 1) bs hbs
              (fun x hx => hbounds x (List.mem_cons_of_mem _ hx)) c hcbs with
            hL0 | hL1
          · exact Or.inl hL0
          · rcases hL1 with ⟨hlev, l0e, hl0e, hrest⟩
            exact Or.inr ⟨hlev, l0e, List.mem_append_right _ hl0e, hrest⟩

theorem docChunks_mem_spec (cfg : ChunkCfg) (wfuel : Nat) (doc : Document)
    (out : List HChunk) (h : docChunks cfg wfuel doc = some out) :
    ∀ c ∈ out,
      (c.chunk_level = "L0" ∧ c.source_document_id = doc.id ∧
        c.char_start < c.char_end ∧
        c.char_end ≤ (preprocess_text_for_chunking doc.text).length) ∨
      (c.chunk_level = "L1" ∧ ∃ l0e ∈ out, l0e.chunk_level = "L0" ∧
        c.parent_chunk_id = some l0e.chunk_id ∧
        l0e.char_start ≤ c.char_start ∧ c.char_end ≤ l0e.char_end) := by
  unfold docChunks at h
  dsimp only at h
  cases hc : create_chunks_from_text cfg.l0_size cfg.l0_overlap cfg.separators
      wfuel (preprocess_text_for_chunking doc.text) with
  | none => rw [hc] at h; exact absurd h (by simp)
  | some l0s =>
    rw [hc] at h
    exact l0Blocks_mem_spec cfg wfuel doc.id
      (preprocess_text_for_chunking doc.text).length l0s 0 out h
      (fun l0 hl0 =>
        ⟨(create_chunks_from_text_bounds _ _ _ _ _ _ hc l0 hl0).1,
         (create_chunks_from_text_bounds _ _ _ _ _ _ hc l0 hl0).2.1,
         (create_chunks_from_text_bounds _ _ _ _ _ _ hc l0 hl0).2.2.1⟩)

/-- Claim C2: whenever `create_hierarchical_chunks` returns, every emitted
L0 chunk has `0 ≤ char_start < char_end ≤ len(page_text)` for the
preprocessed (header-free) text of its source document, and every emitted L1
chunk's character range is contained in its parent L0's range (the parent
being the emitted L0 entry its `parent_chunk_id` points at). -/
theorem create_hierarchical_chunks_containment (cfg : ChunkCfg) (wfuel : Nat)
    (docs : List Document) (out : List HChunk)
    (h : create_hierarchical_chunks cfg wfuel docs = some out) :
    (∀ c ∈ out, c.chunk_level = "L0" →
      ∃ doc ∈ docs, c.source_document_id = doc.id ∧
        0 ≤ c.char_start ∧ c.char_start < c.char_end ∧
        c.char_end ≤ (preprocess_text_for_chunking doc.text).length) ∧
    (∀ c ∈ out, c.chunk_level = "L1" →
      ∃ l0e ∈ out, l0e.chunk_level = "L0" ∧
        c.parent_chunk_id = some l0e.chunk_id ∧
        l0e.char_start ≤ c.char_start ∧ c.char_end ≤ l0e.char_end) := by
  induction docs generalizing out with
  | nil =>
    simp only [create_hierarchical_chunks, Option.some_inj] at h
    subst h
    exact ⟨fun c hc => absurd hc (by simp), fun c hc => absurd hc (by simp)⟩
  | cons doc rest ih =>
    rw [create_hierarchical_chunks] at h
    cases hd : docChunks cfg wfuel doc with
    | none => rw [hd] at h; exact absurd h (by simp)
    | some a =>
      rw [hd] at h
      cases hr : create_hierarchical_chunks cfg wfuel rest with
      | none => rw [hr] at h; exact absurd h (by simp)
      | some b =>
        rw [hr] at h
        simp only [Option.some_inj] at h
        subst h
        rcases ih b hr with ⟨ihL0, ihL1⟩
        constructor
        · intro c hc hlev
          rcases List.mem_append.mp hc with hca | hcb
          · rcases docChunks_mem_spec cfg wfuel doc a hd c hca with hA | hB
            · exact ⟨doc, List.mem_cons_self _ _, hA.2.1, by omega, hA.2.2.1,
                hA.2.2.2⟩
            · rw [hlev] at hB
              exact absurd hB.1 (by decide)
          · rcases ihL0 c hcb hlev with ⟨doc', hdoc', hrest⟩
            exact ⟨doc', List.mem_cons_of_mem _ hdoc', hrest⟩
        · intro c hc hlev
          rcases List.mem_append.mp hc with hca | hcb
          · rcases docChunks_mem_spec cfg wfuel doc a hd c hca with hA | hB
            · rw [hlev] at hA
              exact absurd hA.1 (by decide)
            · rcases hB.2 with ⟨l0e, hl0e, hrest⟩
              exact ⟨l0e, List.mem_append_left _ hl0e, hrest⟩
          · rcases ihL1 c hcb hlev with ⟨l0e, hl0e, hrest⟩
            exact ⟨l0e, List.mem_append_right _ hl0e, hrest⟩

/-- Witness for `create_hierarchical_chunks_containment`: the second emitted
chunk of the concrete run (an L1) is contained in its parent L0's range. -/
theorem create_hierarchical_chunks_containment_witness :
    ∃ l0e ∈ (create_hierarchical_chunks cfgW 20 [docW]).getD [],
      l0e.chunk_level = "L0" ∧
      (((create_hierarchical_chunks cfgW 20 [docW]).getD []).getD 1
        (HChunk.mk [] "" "" 0 0 0 "" none)).parent_chunk_id = some l0e.chunk_id ∧
      l0e.char_start ≤ (((create_hierarchical_chunks cfgW 20 [docW]).getD []).getD 1
        (HChunk.mk [] "" "" 0 0 0 "" none)).char_start ∧
      (((create_hierarchical_chunks cfgW 20 [docW]).getD []).getD 1
        (HChunk.mk [] "" "" 0 0 0 "" none)).char_end ≤ l0e.char_end :=
  (create_hierarchical_chunks_containment cfgW 20 [docW]
    ((create_hierarchical_chunks cfgW 20 [docW]).getD []) (by decide)).2
    (((create_hierarchical_chunks cfgW 20 [docW]).getD []).getD 1
      (HChunk.mk [] "" "" 0 0 0 "" none)) (by decide) (by decide)
